import Mathlib

/-!
# Verification of the hybrid retrieval fusion and ranking pipeline

Shallow embedding of the core algorithmic files of the repository:

* `libs/retriever/rrf.py`            — Reciprocal Rank Fusion (`rrf_fuse`, `_build_key`,
                                       `_extract_text_from_vector_hit`)
* `services/retriever/rerank.py`     — `Reranker` (`_normalize`, `rerank`)
* `services/retriever/hybrid_retriever.py` — `HybridRetriever.search`
* `libs/caching/query_cache.py`      — `QueryCache` (`make_key`, `get`, `set`,
                                       `is_redis_available`)
* `services/api_gateway/main.py`     — `query_endpoint` (cache gates, degraded branches)

Modelling conventions:

* Python `dict` result records are modelled by the structure `Entry`, whose optional
  fields are `Option`-valued; an absent dict key is `none`.
* Python `float` score arithmetic is modelled by exact rationals `ℚ`.  All score
  values appearing in the verified properties (sums of `1/(k+rank)`, min-max
  normalisation, weighted sums) are exact in both semantics.
* Python's stable `list.sort(key=..., reverse=True)` is modelled by a stable
  insertion sort `sortDescBy` (any two stable descending sorts agree extensionally).
* External collaborators (Milvus, Redis, the embedding model, `numpy`'s vector norm,
  wall-clock elapsed times) are parameters of the model functions.
-/

/-- Truthiness of an optional Python string: `None` and `""` are falsy. -/
def strTruthy : Option String → Bool
  | none => false
  | some s => s ≠ ""

/-- Python `a or b` on two optional strings (`None`/`""` falsy). -/
def pyOrStr (a b : Option String) : Option String :=
  if strTruthy a then a else b

/-- `o.getD ""`: the string value of an optional string, `""` when absent. -/
def strVal (o : Option String) : String := o.getD ""

/-- Nested metadata dict carrying the `"text"` / `"content"` keys read by the code. -/
structure Meta where
  text : Option String := none
  content : Option String := none
deriving DecidableEq

/-- A retrieval / fusion result record (a Python `dict` in the source).  Fields the
pipeline may read or write; an absent dict key is `none`.  `score` is the raw
backend score of a hit (already coerced: `float(...)` of a non-numeric value in the
source yields `None`, modelled as `none`). -/
structure Entry where
  doc_id : Option String := none
  chunk_id : Option Int := none
  text : Option String := none
  meta : Option Meta := none
  score : Option ℚ := none
  score_vector : Option ℚ := none
  score_bm25 : Option ℚ := none
  bm25_score : Option ℚ := none
  vector_score : Option ℚ := none
  rrf_score : Option ℚ := none
  sources : List String := []
  rerank_score : Option ℚ := none
  score_rerank_cos : Option ℚ := none
  error : Option String := none
deriving DecidableEq

/-- `meta.get("text")` after `meta = hit.get("meta") or {}`. -/
def metaTextOf : Option Meta → Option String
  | some m => m.text
  | none => none

/-- `meta.get("content")` after `meta = hit.get("meta") or {}`. -/
def metaContentOf : Option Meta → Option String
  | some m => m.content
  | none => none

/-- `_extract_text_from_vector_hit` (`libs/retriever/rrf.py`): prefer a truthy
`hit["text"]`, else `meta.get("text") or meta.get("content")`. -/
def extractTextFromVectorHit (hit : Entry) : Option String :=
  if strTruthy hit.text then hit.text
  else pyOrStr (metaTextOf hit.meta) (metaContentOf hit.meta)

/-- The identity key of a `(doc_id, chunk_id)` pair: `f"{doc_id or ''}::{chunk_id}"`
(`_build_key`, main branch). -/
def pairKeyStr (d : Option String) (c : Int) : String :=
  strVal d ++ "::" ++ toString c

/-- `_build_key` (`libs/retriever/rrf.py`): `doc_id::chunk_id` when `chunk_id` is
present, else the per-source-per-rank fallback `f"{source}:{idx}"`. -/
def buildKey (hit : Entry) (source : String) (idx : ℕ) : String :=
  match hit.chunk_id with
  | some c => pairKeyStr hit.doc_id c
  | none => source ++ ":" ++ toString idx

/-- The fused entry seeded for a new key (`rrf_fuse`, `if key not in fused` branch).
The Python literal dict has exactly the seven keys below; every other field of
`Entry` is absent (`none` / `[]` by the structure defaults). -/
def seedEntry (hit : Entry) (isVector : Bool) : Entry :=
  { doc_id := hit.doc_id
    chunk_id := hit.chunk_id
    text := if isVector then extractTextFromVectorHit hit else hit.text
    score_vector := none
    score_bm25 := none
    rrf_score := some 0
    sources := [] }

/-- The per-hit mutation of an existing fused entry (`rrf_fuse`, body of the loop
after seeding): record the source idempotently, store the raw score into the
source-specific field when present, and add the contribution `1/(k+rank)`.
`rrf_score` was seeded to `some 0`, so the `getD 0` default is never read. -/
def applyHit (source : String) (isVector : Bool) (k rank : ℕ) (hit : Entry)
    (e : Entry) : Entry :=
  { e with
    sources := if source ∈ e.sources then e.sources else e.sources ++ [source]
    score_vector :=
      if isVector && hit.score.isSome then hit.score else e.score_vector
    score_bm25 :=
      if !isVector && hit.score.isSome then hit.score else e.score_bm25
    rrf_score := some (e.rrf_score.getD 0 + 1 / ((k : ℚ) + (rank : ℚ))) }

/-- Whether the insertion-ordered dict holds a binding for `key`. -/
def hasKey (key : String) : List (String × Entry) → Bool
  | [] => false
  | (k', _) :: rest => k' = key || hasKey key rest

/-- Update the (unique) binding for `key` in place, preserving insertion order. -/
def updateAt (key : String) (f : Entry → Entry) :
    List (String × Entry) → List (String × Entry)
  | [] => []
  | (k', e) :: rest =>
      if k' = key then (k', f e) :: rest else (k', e) :: updateAt key f rest

/-- One iteration of the `rrf_fuse` loop: seed the entry if its key is new
(insertion order: appended at the end, as in a Python dict), then apply the hit. -/
def addHit (fused : List (String × Entry)) (source : String) (isVector : Bool)
    (k rank : ℕ) (hit : Entry) : List (String × Entry) :=
  let key := buildKey hit source rank
  let fused1 :=
    if hasKey key fused then fused else fused ++ [(key, seedEntry hit isVector)]
  updateAt key (applyHit source isVector k rank hit) fused1

/-- `add_results` (`rrf_fuse`): fold the hits of one source over the dict,
with ranks counted from `rank` (`enumerate(results, start=1)`). -/
def addResultsAux (source : String) (isVector : Bool) (k : ℕ) :
    List (String × Entry) → ℕ → List Entry → List (String × Entry)
  | fused, _, [] => fused
  | fused, rank, h :: rest =>
      addResultsAux source isVector k (addHit fused source isVector k rank h)
        (rank + 1) rest

/-- Stable insertion of `x` (earlier in the original list than everything in `l`)
into a descending-sorted list: `x` goes before the first element whose key is
not larger, so ties keep the original order. -/
def insertDescBy {α : Type} (key : α → ℚ) (x : α) : List α → List α
  | [] => [x]
  | y :: ys => if key y ≤ key x then x :: y :: ys else y :: insertDescBy key x ys

/-- Stable descending sort by `key`: the model of Python's
`list.sort(key=..., reverse=True)` (Timsort is stable; any two stable descending
sorts agree extensionally). -/
def sortDescBy {α : Type} (key : α → ℚ) : List α → List α
  | [] => []
  | x :: xs => insertDescBy key x (sortDescBy key xs)

/-- The sort key `lambda x: x["rrf_score"]` of `rrf_fuse`; every entry reaching the
sort was seeded with `rrf_score = 0.0`, so the `getD 0` default is never read. -/
def entryRrf (e : Entry) : ℚ := e.rrf_score.getD 0

/-- `rrf_fuse` (`libs/retriever/rrf.py`): fold vector hits first, then BM25 hits,
then sort the dict values descending by `rrf_score` (stable). -/
def rrf_fuse (vector_results bm25_results : List Entry) (k : ℕ := 60) :
    List Entry :=
  let fused := addResultsAux "vector" true k [] 1 vector_results
  let fused2 := addResultsAux "bm25" false k fused 1 bm25_results
  sortDescBy entryRrf (fused2.map Prod.snd)

/-- The insertion-ordered fused dict before the final sort: all vector-introduced
keys in vector rank order, followed by lexical-only keys in lexical arrival order. -/
def preSortFused (vector_results bm25_results : List Entry) (k : ℕ) :
    List (String × Entry) :=
  addResultsAux "bm25" false k
    (addResultsAux "vector" true k [] 1 vector_results) 1 bm25_results

unseal Rat.add Rat.mul Rat.inv Rat.sub

theorem insertDescBy_perm {α : Type} (key : α → ℚ) (x : α) (l : List α) :
    (insertDescBy key x l).Perm (x :: l) := by
  induction l with
  | nil => simp [insertDescBy]
  | cons y ys ih =>
      by_cases h : key y ≤ key x
      · simp [insertDescBy, h]
      · simp only [insertDescBy, if_neg h]
        exact ((ih.cons y).trans (List.Perm.swap x y ys))

theorem sortDescBy_perm {α : Type} (key : α → ℚ) (l : List α) :
    (sortDescBy key l).Perm l := by
  induction l with
  | nil => simp [sortDescBy]
  | cons x xs ih =>
      exact (insertDescBy_perm key x (sortDescBy key xs)).trans (ih.cons x)

theorem insertDescBy_pairwise {α : Type} (key : α → ℚ) (x : α) (l : List α)
    (h : l.Pairwise (fun a b => key b ≤ key a)) :
    (insertDescBy key x l).Pairwise (fun a b => key b ≤ key a) := by
  induction l with
  | nil => simp [insertDescBy]
  | cons y ys ih =>
      rcases List.pairwise_cons.mp h with ⟨hy, hys⟩
      by_cases hle : key y ≤ key x
      · simp only [insertDescBy, if_pos hle]
        refine List.pairwise_cons.mpr ⟨?_, h⟩
        intro z hz
        rcases List.mem_cons.mp hz with rfl | hz
        · exact hle
        · exact le_trans (hy z hz) hle
      · simp only [insertDescBy, if_neg hle]
        refine List.pairwise_cons.mpr ⟨?_, ih hys⟩
        intro z hz
        rcases List.mem_cons.mp (((insertDescBy_perm key x ys).mem_iff).mp hz) with
          rfl | hz
        · exact le_of_not_le hle
        · exact hy z hz

theorem sortDescBy_pairwise {α : Type} (key : α → ℚ) (l : List α) :
    (sortDescBy key l).Pairwise (fun a b => key b ≤ key a) := by
  induction l with
  | nil => simp [sortDescBy]
  | cons x xs ih => exact insertDescBy_pairwise key x (sortDescBy key xs) ih

/-- Stability of the sort: the subsequence of entries having any fixed key value
is unchanged by the sort, i.e. ties keep their pre-sort (insertion) order. -/
theorem insertDescBy_filter_eq {α : Type} (key : α → ℚ) (c : ℚ) (x : α)
    (l : List α) (hx : key x = c) :
    (insertDescBy key x l).filter (fun e => key e = c) =
      x :: l.filter (fun e => key e = c) := by
  induction l with
  | nil => simp [insertDescBy, hx]
  | cons y ys ih =>
      by_cases hle : key y ≤ key x
      · rw [insertDescBy, if_pos hle, List.filter_cons_of_pos (by simpa using hx)]
      · have hyc : ¬ (key y = c) := fun hyc => hle (by rw [hyc, hx])
        rw [insertDescBy, if_neg hle,
          List.filter_cons_of_neg (by simpa using hyc), ih,
          List.filter_cons_of_neg (by simpa using hyc)]

theorem insertDescBy_filter_ne {α : Type} (key : α → ℚ) (c : ℚ) (x : α)
    (l : List α) (hx : ¬ (key x = c)) :
    (insertDescBy key x l).filter (fun e => key e = c) =
      l.filter (fun e => key e = c) := by
  induction l with
  | nil => simp [insertDescBy, hx]
  | cons y ys ih =>
      by_cases hle : key y ≤ key x
      · simp [insertDescBy, if_pos hle, hx]
      · simp [insertDescBy, if_neg hle, List.filter_cons, ih]

theorem sortDescBy_filter {α : Type} (key : α → ℚ) (c : ℚ) (l : List α) :
    (sortDescBy key l).filter (fun e => key e = c) =
      l.filter (fun e => key e = c) := by
  induction l with
  | nil => simp [sortDescBy]
  | cons x xs ih =>
      by_cases hx : key x = c
      · rw [sortDescBy, insertDescBy_filter_eq key c x _ hx, ih,
          List.filter_cons_of_pos (by simpa using hx)]
      · rw [sortDescBy, insertDescBy_filter_ne key c x _ hx, ih,
          List.filter_cons_of_neg (by simpa using hx)]

/-- A list on which the key is constant is left unchanged by the stable sort. -/
theorem sortDescBy_const {α : Type} (key : α → ℚ) (c : ℚ) (l : List α)
    (h : ∀ a ∈ l, key a = c) : sortDescBy key l = l := by
  induction l with
  | nil => simp [sortDescBy]
  | cons x xs ih =>
      rw [sortDescBy, ih (fun a ha => h a (List.mem_cons_of_mem x ha))]
      cases xs with
      | nil => simp [insertDescBy]
      | cons y ys =>
          have : key y ≤ key x := by
            rw [h y (by simp), h x (by simp)]
          simp [insertDescBy, this]

theorem hasKey_iff_mem (key : String) (L : List (String × Entry)) :
    hasKey key L = true ↔ key ∈ L.map Prod.fst := by
  induction L with
  | nil => simp [hasKey]
  | cons p rest ih =>
      cases p with
      | mk k' e =>
          simp only [hasKey, List.map_cons, List.mem_cons, Bool.or_eq_true,
            decide_eq_true_eq, ih]
          exact or_congr_left (by exact ⟨fun h => h.symm, fun h => h.symm⟩)

theorem updateAt_keys (key : String) (f : Entry → Entry)
    (L : List (String × Entry)) :
    (updateAt key f L).map Prod.fst = L.map Prod.fst := by
  induction L with
  | nil => rfl
  | cons p rest ih =>
      cases p with
      | mk k' e =>
          by_cases h : k' = key
          · simp [updateAt, h]
          · simp [updateAt, h, ih]

theorem updateAt_mem (key : String) (f : Entry → Entry)
    (L : List (String × Entry)) (p : String × Entry)
    (hp : p ∈ updateAt key f L) :
    p ∈ L ∨ ∃ q ∈ L, p = (q.1, f q.2) := by
  induction L with
  | nil => simp [updateAt] at hp
  | cons q rest ih =>
      cases q with
      | mk k' e =>
          by_cases h : k' = key
          · rw [updateAt, if_pos h] at hp
            rcases List.mem_cons.mp hp with rfl | hp
            · exact Or.inr ⟨(k', e), by simp⟩
            · exact Or.inl (List.mem_cons_of_mem _ hp)
          · rw [updateAt, if_neg h] at hp
            rcases List.mem_cons.mp hp with rfl | hp
            · exact Or.inl (List.mem_cons_self _ _)
            · rcases ih hp with hin | ⟨q, hq, rfl⟩
              · exact Or.inl (List.mem_cons_of_mem _ hin)
              · exact Or.inr ⟨q, List.mem_cons_of_mem _ hq, rfl⟩

theorem addHit_keys (L : List (String × Entry)) (source : String)
    (isVector : Bool) (k rank : ℕ) (hit : Entry) :
    (addHit L source isVector k rank hit).map Prod.fst =
      if hasKey (buildKey hit source rank) L then L.map Prod.fst
      else L.map Prod.fst ++ [buildKey hit source rank] := by
  by_cases h : hasKey (buildKey hit source rank) L
  · simp [addHit, h, updateAt_keys]
  · simp [addHit, h, updateAt_keys]

theorem addHit_hasKey_mono (L : List (String × Entry)) (source : String)
    (isVector : Bool) (k rank : ℕ) (hit : Entry) (x : String)
    (hx : hasKey x L = true) :
    hasKey x (addHit L source isVector k rank hit) = true := by
  rw [hasKey_iff_mem] at hx ⊢
  rw [addHit_keys]
  by_cases h : hasKey (buildKey hit source rank) L
  · simpa [h] using hx
  · simp [h, List.mem_append, hx]

theorem addHit_hasKey_self (L : List (String × Entry)) (source : String)
    (isVector : Bool) (k rank : ℕ) (hit : Entry) :
    hasKey (buildKey hit source rank) (addHit L source isVector k rank hit) =
      true := by
  rw [hasKey_iff_mem, addHit_keys]
  by_cases h : hasKey (buildKey hit source rank) L
  · simpa [h] using (hasKey_iff_mem _ L).mp h
  · simp [h]

theorem addResultsAux_hasKey_mono (source : String) (isVector : Bool) (k : ℕ)
    (hits : List Entry) (L : List (String × Entry)) (rank : ℕ) (x : String)
    (hx : hasKey x L = true) :
    hasKey x (addResultsAux source isVector k L rank hits) = true := by
  induction hits generalizing L rank with
  | nil => exact hx
  | cons h rest ih =>
      exact ih _ _ (addHit_hasKey_mono L source isVector k rank h x hx)

/-- Every processed hit's key ends up present in the fused dict. -/
theorem addResultsAux_hasKey_of_mem (source : String) (isVector : Bool) (k : ℕ)
    (hits : List Entry) (L : List (String × Entry)) (rank : ℕ) (h : Entry)
    (hh : h ∈ hits) (c : Int) (hc : h.chunk_id = some c) :
    hasKey (pairKeyStr h.doc_id c)
      (addResultsAux source isVector k L rank hits) = true := by
  induction hits generalizing L rank with
  | nil => simp at hh
  | cons h0 rest ih =>
      rcases List.mem_cons.mp hh with rfl | hh
      · have hbk : buildKey h source rank = pairKeyStr h.doc_id c := by
          simp [buildKey, hc]
        have h1 := addHit_hasKey_self L source isVector k rank h
        rw [hbk] at h1
        exact addResultsAux_hasKey_mono source isVector k rest
          (addHit L source isVector k rank h) (rank + 1) _ h1
      · exact ih _ _ hh

theorem applyHit_doc_chunk (source : String) (isVector : Bool) (k rank : ℕ)
    (hit e : Entry) :
    (applyHit source isVector k rank hit e).doc_id = e.doc_id ∧
      (applyHit source isVector k rank hit e).chunk_id = e.chunk_id := by
  constructor <;> rfl

/-- Invariant of the fused dict: keys are distinct, and every binding's
`(doc_id, chunk_id)` pair was copied from some input hit whose pair key equals
the binding's key. -/
def FusedInv (allHits : List Entry) (L : List (String × Entry)) : Prop :=
  (L.map Prod.fst).Nodup ∧
  ∀ p ∈ L, ∃ h ∈ allHits, p.2.doc_id = h.doc_id ∧ p.2.chunk_id = h.chunk_id ∧
    ∃ c, h.chunk_id = some c ∧ p.1 = pairKeyStr h.doc_id c

theorem addHit_inv (allHits : List Entry) (L : List (String × Entry))
    (source : String) (isVector : Bool) (k rank : ℕ) (hit : Entry)
    (hmem : hit ∈ allHits) (c : Int) (hc : hit.chunk_id = some c)
    (hL : FusedInv allHits L) :
    FusedInv allHits (addHit L source isVector k rank hit) := by
  rcases hL with ⟨hnd, hco⟩
  have hkey : buildKey hit source rank = pairKeyStr hit.doc_id c := by
    simp [buildKey, hc]
  constructor
  · rw [addHit_keys]
    by_cases h : hasKey (buildKey hit source rank) L
    · simpa [h] using hnd
    · rw [if_neg h]
      refine List.Nodup.append hnd (List.nodup_singleton _) ?_
      intro a ha hb
      rcases List.mem_singleton.mp hb with rfl
      exact h ((hasKey_iff_mem _ L).mpr ha)
  · intro p hp
    have hstep : p ∈ (if hasKey (buildKey hit source rank) L then L
        else L ++ [(buildKey hit source rank, seedEntry hit isVector)]) ∨
        ∃ q ∈ (if hasKey (buildKey hit source rank) L then L
          else L ++ [(buildKey hit source rank, seedEntry hit isVector)]),
          p = (q.1, applyHit source isVector k rank hit q.2) := by
      simpa [addHit] using updateAt_mem _ _ _ p hp
    have hbase : ∀ q, q ∈ (if hasKey (buildKey hit source rank) L then L
        else L ++ [(buildKey hit source rank, seedEntry hit isVector)]) →
        ∃ h ∈ allHits, q.2.doc_id = h.doc_id ∧ q.2.chunk_id = h.chunk_id ∧
          ∃ c', h.chunk_id = some c' ∧ q.1 = pairKeyStr h.doc_id c' := by
      intro q hq
      by_cases hhk : hasKey (buildKey hit source rank) L
      · exact hco q (by simpa [hhk] using hq)
      · rw [if_neg hhk] at hq
        rcases List.mem_append.mp hq with hq | hq
        · exact hco q hq
        · rcases List.mem_singleton.mp hq with rfl
          exact ⟨hit, hmem, rfl, rfl, c, hc, hkey⟩
    rcases hstep with hin | ⟨q, hq, rfl⟩
    · exact hbase p hin
    · rcases hbase q hq with ⟨h, hh, hd, hcq, c', hc', hk⟩
      exact ⟨h, hh, by simpa [(applyHit_doc_chunk source isVector k rank hit
        q.2).1] using hd, by simpa [(applyHit_doc_chunk source isVector k rank
        hit q.2).2] using hcq, c', hc', hk⟩

theorem addResultsAux_inv (allHits : List Entry) (source : String)
    (isVector : Bool) (k : ℕ) (hits : List Entry) (L : List (String × Entry))
    (rank : ℕ) (hsub : ∀ h ∈ hits, h ∈ allHits)
    (hch : ∀ h ∈ hits, h.chunk_id.isSome)
    (hL : FusedInv allHits L) :
    FusedInv allHits (addResultsAux source isVector k L rank hits) := by
  induction hits generalizing L rank with
  | nil => exact hL
  | cons h0 rest ih =>
      have hc0 : h0.chunk_id.isSome := hch h0 (by simp)
      rcases Option.isSome_iff_exists.mp hc0 with ⟨c0, hc0'⟩
      exact ih _ _ (fun h hh => hsub h (List.mem_cons_of_mem _ hh))
        (fun h hh => hch h (List.mem_cons_of_mem _ hh))
        (addHit_inv allHits L source isVector k rank h0 (hsub h0 (by simp))
          c0 hc0' hL)

theorem countP_le_one_of_keyed (K : String) (p : Entry → Bool)
    (L : List (String × Entry)) (hnd : (L.map Prod.fst).Nodup)
    (hkeyed : ∀ q ∈ L, p q.2 = true → q.1 = K) :
    (L.map Prod.snd).countP p ≤ 1 := by
  induction L with
  | nil => simp
  | cons q rest ih =>
      have hnd' : q.1 ∉ rest.map Prod.fst ∧ (rest.map Prod.fst).Nodup := by
        rw [List.map_cons, List.nodup_cons] at hnd
        exact hnd
      rcases hnd' with ⟨hq, hrest⟩
      by_cases hp : p q.2 = true
      · have hqK : q.1 = K := hkeyed q (by simp) hp
        have hzero : (rest.map Prod.snd).countP p = 0 := by
          rw [List.countP_eq_zero]
          intro e he
          rcases List.mem_map.mp he with ⟨r, hr, rfl⟩
          intro hpe
          exact hq (by
            have : r.1 = K := hkeyed r (List.mem_cons_of_mem _ hr) hpe
            rw [hqK, ← this]
            exact List.mem_map_of_mem Prod.fst hr)
        simp [List.countP_cons, hp, hzero]
      · have := ih hrest (fun r hr hpr => hkeyed r (List.mem_cons_of_mem _ hr) hpr)
        simpa [List.countP_cons, hp] using this

/-- The `(doc_id, chunk_id)` identity key of a hit, when its `chunk_id` is known. -/
def hitPairKey (h : Entry) : Option String :=
  h.chunk_id.map (pairKeyStr h.doc_id)

/-- Claim C1 as stated is false: with `chunk_id` absent, `_build_key` falls back to
a per-source-per-rank key, so the same `(doc_id, chunk_id)` pair can appear twice
in the fused output.  Concrete input: two vector hits and one lexical hit, all with
`doc_id = "a"` and no `chunk_id`; the pair `("a", ⊥)` appears in the input but
three fused entries carry it, not exactly one. -/
theorem c1_fusion_completeness_counterexample :
    (∃ h ∈ ([{ doc_id := some "a" }, { doc_id := some "a" }] : List Entry) ++
        ([{ doc_id := some "a", score := some 1 }] : List Entry),
      h.doc_id = some "a" ∧ h.chunk_id = (none : Option Int)) ∧
    ¬ ((rrf_fuse [{ doc_id := some "a" }, { doc_id := some "a" }]
          [{ doc_id := some "a", score := some 1 }] 60).countP
        (fun e => decide (e.doc_id = some "a" ∧ e.chunk_id = (none : Option Int)))
        = 1) := by
  constructor
  · exact ⟨{ doc_id := some "a" }, by simp, by simp, rfl⟩
  · decide

/-- Claim C1 (amended): for every pair of non-empty input lists in which every hit
carries a `chunk_id` and no two hits with distinct `(doc_id, chunk_id)` pairs
produce the same identity key `f"{doc_id or ''}::{chunk_id}"`, every distinct
`(doc_id, chunk_id)` pair appearing in either input appears exactly once in the
output of `rrf_fuse`. -/
theorem c1_fusion_completeness (vec bm : List Entry) (k : ℕ) (d : Option String)
    (c : Int) (hvne : vec ≠ []) (hbne : bm ≠ [])
    (hall : ∀ h ∈ vec ++ bm, h.chunk_id.isSome)
    (hinj : ∀ h1 ∈ vec ++ bm, ∀ h2 ∈ vec ++ bm, hitPairKey h1 = hitPairKey h2 →
      h1.doc_id = h2.doc_id ∧ h1.chunk_id = h2.chunk_id)
    (hmem : ∃ h ∈ vec ++ bm, h.doc_id = d ∧ h.chunk_id = some c) :
    (rrf_fuse vec bm k).countP
      (fun e => decide (e.doc_id = d ∧ e.chunk_id = some c)) = 1 := by
  classical
  set L1 := addResultsAux "vector" true k [] 1 vec with hL1
  set L2 := preSortFused vec bm k with hL2
  have hfuse : rrf_fuse vec bm k = sortDescBy entryRrf (L2.map Prod.snd) := rfl
  have hperm : (sortDescBy entryRrf (L2.map Prod.snd)).Perm (L2.map Prod.snd) :=
    sortDescBy_perm _ _
  have hinv : FusedInv (vec ++ bm) L2 := by
    have h0 : FusedInv (vec ++ bm) [] := ⟨List.nodup_nil, by simp⟩
    have h1 : FusedInv (vec ++ bm) L1 :=
      addResultsAux_inv (vec ++ bm) "vector" true k vec [] 1
        (fun h hh => List.mem_append_left _ hh)
        (fun h hh => hall h (List.mem_append_left _ hh)) h0
    exact addResultsAux_inv (vec ++ bm) "bm25" false k bm L1 1
      (fun h hh => List.mem_append_right _ hh)
      (fun h hh => hall h (List.mem_append_right _ hh)) h1
  rcases hmem with ⟨h0, hh0, hd0, hc0⟩
  -- the key of the target pair is present in the fused dict
  have hkeyin : hasKey (pairKeyStr d c) L2 = true := by
    rcases List.mem_append.mp hh0 with hh | hh
    · have := addResultsAux_hasKey_of_mem "vector" true k vec [] 1 h0 hh c hc0
      rw [hd0] at this
      exact addResultsAux_hasKey_mono "bm25" false k bm L1 1 _ this
    · have := addResultsAux_hasKey_of_mem "bm25" false k bm L1 1 h0 hh c hc0
      rw [hd0] at this
      exact this
  have hex : ∃ e : Entry, (pairKeyStr d c, e) ∈ L2 := by
    rcases List.mem_map.mp ((hasKey_iff_mem _ L2).mp hkeyin) with ⟨q, hq, hq1⟩
    exact ⟨q.2, by rwa [← hq1]⟩
  rcases hex with ⟨e, he⟩
  -- the entry under that key carries exactly the target pair
  have hpair : e.doc_id = d ∧ e.chunk_id = some c := by
    rcases hinv.2 _ he with ⟨h1, hh1, hdq, hcq, c', hc', hk⟩
    have hkeys : hitPairKey h1 = hitPairKey h0 := by
      simp [hitPairKey, hc', hc0, hk.symm, hd0]
    rcases hinj h1 hh1 h0 hh0 hkeys with ⟨hdd, hcc⟩
    refine ⟨?_, ?_⟩
    · rw [hdq, hdd, hd0]
    · rw [hcq, hcc, hc0]
  have hp : (fun e => decide (e.doc_id = d ∧ e.chunk_id = some c)) e = true := by
    simpa using hpair
  have hlow : 1 ≤ (L2.map Prod.snd).countP
      (fun e => decide (e.doc_id = d ∧ e.chunk_id = some c)) := by
    rw [Nat.succ_le_iff, List.countP_pos_iff]
    exact ⟨e, List.mem_map_of_mem Prod.snd he, hp⟩
  have hhigh : (L2.map Prod.snd).countP
      (fun e => decide (e.doc_id = d ∧ e.chunk_id = some c)) ≤ 1 := by
    refine countP_le_one_of_keyed (pairKeyStr d c) _ L2 hinv.1 ?_
    intro q hq hpq
    rcases hinv.2 _ hq with ⟨h1, hh1, hdq, hcq, c', hc', hk⟩
    have hpq' : q.2.doc_id = d ∧ q.2.chunk_id = some c := by simpa using hpq
    have hd1 : h1.doc_id = d := by rw [← hdq, hpq'.1]
    have hc1 : (c' : Int) = c := by
      have := hpq'.2
      rw [hcq, hc'] at this
      exact Option.some_injective _ this
    rw [hk, hd1, hc1]
  rw [hfuse, hperm.countP_eq]
  exact le_antisymm hhigh hlow

/-! ## Reranker (`services/retriever/rerank.py`) -/

/-- The `Reranker` weights (`__init__` defaults: `alpha=1.0, beta=0.2, gamma=0.2,
delta=0.3`). -/
structure Weights where
  alpha : ℚ := 1
  beta : ℚ := 2/10
  gamma : ℚ := 2/10
  delta : ℚ := 3/10
deriving DecidableEq

/-- `numpy` dot product of two vectors. -/
def dotQ (a b : List ℚ) : ℚ := (List.zipWith (· * ·) a b).sum

/-- `Reranker._cosine`: `0.0` when either norm is zero, else `a·b / (‖a‖‖b‖)`.
`np.linalg.norm` is an external numerical routine (a square root, irrational in
general), so it is a parameter `norm` of the model; the zero test and the
division are the source's. -/
def cosineSim (norm : List ℚ → ℚ) (a b : List ℚ) : ℚ :=
  let na := norm a
  let nb := norm b
  if na = 0 ∨ nb = 0 then 0 else dotQ a b / (na * nb)

/-- Python `min(vals)` on a non-empty list (the empty case is unreachable behind
the `if not vals` guard of `_normalize`). -/
def listMin : List ℚ → ℚ
  | [] => 0
  | v :: vs => vs.foldl min v

/-- Python `max(vals)` on a non-empty list. -/
def listMax : List ℚ → ℚ
  | [] => 0
  | v :: vs => vs.foldl max v

/-- `Reranker._normalize`: min-max normalisation; `None` normalises to `0.0`;
when all non-`None` values are within `1e-9` of each other, every non-`None`
entry normalises to `0.5`. -/
def pyNormalize (scores : List (Option ℚ)) : List ℚ :=
  let vals := scores.filterMap id
  if vals = [] then scores.map (fun _ => 0)
  else
    let mn := listMin vals
    let mx := listMax vals
    if |mx - mn| < 1/1000000000 then
      scores.map (fun s => if s.isSome then 1/2 else 0)
    else
      scores.map (fun s => match s with
        | some x => (x - mn) / (mx - mn)
        | none => 0)

/-- Candidate text resolution in `Reranker.rerank`: `c.get("text")`, else
`meta.get("text") or meta.get("content") or ""` (`None`/`""` falsy). -/
def resolveCandText (c : Entry) : String :=
  if strTruthy c.text then strVal c.text
  else if strTruthy (metaTextOf c.meta) then strVal (metaTextOf c.meta)
  else strVal (metaContentOf c.meta)

/-- The cosine-similarity series of `Reranker.rerank`: embed each candidate's
resolved text and compare to the query embedding; empty text contributes `0.0`. -/
def cosSeries (norm : List ℚ → ℚ) (embed : String → List ℚ) (qv : List ℚ)
    (cands : List Entry) : List ℚ :=
  cands.map fun c =>
    let t := resolveCandText c
    if t ≠ "" then cosineSim norm qv (embed t) else 0

/-- The BM25 series: `c.get("score_bm25")`, falling back to `c.get("bm25_score")`. -/
def bm25Series (cands : List Entry) : List (Option ℚ) :=
  cands.map fun c => if c.score_bm25.isSome then c.score_bm25 else c.bm25_score

/-- The vector series: `score_vector`, else `vector_score`, else the raw `score`. -/
def vecSeries (cands : List Entry) : List (Option ℚ) :=
  cands.map fun c =>
    if c.score_vector.isSome then c.score_vector
    else if c.vector_score.isSome then c.vector_score else c.score

/-- The RRF series: `c.get("rrf_score")`. -/
def rrfSeries (cands : List Entry) : List (Option ℚ) :=
  cands.map (·.rrf_score)

/-- The `zip(...)` loop of `Reranker.rerank`: copy each candidate dict and add
`rerank_score` (the weighted sum of the four normalised scores) and
`score_rerank_cos` (the normalised cosine value). -/
def combineScores (w : Weights) :
    List Entry → List ℚ → List ℚ → List ℚ → List ℚ → List Entry
  | c :: cs, a :: arest, b :: brest, v :: vrest, r :: rrest =>
      { c with
        rerank_score :=
          some (w.alpha * a + w.beta * b + w.gamma * v + w.delta * r)
        score_rerank_cos := some a } ::
        combineScores w cs arest brest vrest rrest
  | _, _, _, _, _ => []

/-- The sort key `x.get("rerank_score", 0.0)` of `Reranker.rerank`. -/
def entryRerank (e : Entry) : ℚ := e.rerank_score.getD 0

/-- `Reranker.rerank` (`services/retriever/rerank.py`): empty input returns
empty immediately; otherwise embed the query, build the four score series,
min-max normalise each, combine with the weights and stable-sort descending by
`rerank_score`.  The embedding model and the vector norm are external
collaborators, passed as the parameters `embed` and `norm`. -/
def rerankModel (w : Weights) (norm : List ℚ → ℚ) (embed : String → List ℚ)
    (query : String) (candidates : List Entry) : List Entry :=
  if candidates = [] then []
  else
    let qv := embed query
    let cosN := pyNormalize ((cosSeries norm embed qv candidates).map some)
    let bmN := pyNormalize (bm25Series candidates)
    let vN := pyNormalize (vecSeries candidates)
    let rN := pyNormalize (rrfSeries candidates)
    sortDescBy entryRerank (combineScores w candidates cosN bmN vN rN)

theorem foldl_min_const (v : ℚ) (l : List ℚ) (h : ∀ a ∈ l, a = v) :
    l.foldl min v = v := by
  induction l with
  | nil => rfl
  | cons x xs ih =>
      rw [List.foldl_cons, h x (by simp), min_self]
      exact ih (fun a ha => h a (List.mem_cons_of_mem _ ha))

theorem foldl_max_const (v : ℚ) (l : List ℚ) (h : ∀ a ∈ l, a = v) :
    l.foldl max v = v := by
  induction l with
  | nil => rfl
  | cons x xs ih =>
      rw [List.foldl_cons, h x (by simp), max_self]
      exact ih (fun a ha => h a (List.mem_cons_of_mem _ ha))

/-- On a series whose entries are all equal, `_normalize` returns a constant
series (`0.0` for an all-`None` series, `0.5` for an all-equal non-`None` one). -/
theorem pyNormalize_const (scores : List (Option ℚ)) (v : Option ℚ)
    (h : ∀ s ∈ scores, s = v) :
    ∃ cv, pyNormalize scores = scores.map (fun _ => cv) := by
  rcases hs : scores with _ | ⟨s0, rest⟩
  · exact ⟨0, by simp [pyNormalize]⟩
  rcases v with _ | x
  · refine ⟨0, ?_⟩
    have hv : (s0 :: rest).filterMap id = [] := by
      rw [List.filterMap_eq_nil_iff]
      intro a ha
      rw [h a (hs ▸ ha)]
      rfl
    simp [pyNormalize, hv]
  · refine ⟨1/2, ?_⟩
    have hs0 : s0 = some x := h s0 (by rw [hs]; simp)
    have hvmem : ∀ a ∈ (s0 :: rest).filterMap id, a = x := by
      intro a ha
      rcases List.mem_filterMap.mp ha with ⟨s, hsmem, hsa⟩
      have := h s (hs ▸ hsmem)
      rw [this] at hsa
      exact (Option.some_injective _ hsa).symm
    have hvne : (s0 :: rest).filterMap id ≠ [] := by
      rw [hs0]
      simp [List.filterMap_cons]
    have hmin : listMin ((s0 :: rest).filterMap id) = x := by
      rcases hl : (s0 :: rest).filterMap id with _ | ⟨y, ys⟩
      · exact absurd hl hvne
      · rw [listMin]
        have hy : y = x := hvmem y (by rw [hl]; simp)
        rw [hy]
        exact foldl_min_const x ys (fun a ha => hvmem a (by rw [hl]; simp [ha]))
    have hmax : listMax ((s0 :: rest).filterMap id) = x := by
      rcases hl : (s0 :: rest).filterMap id with _ | ⟨y, ys⟩
      · exact absurd hl hvne
      · rw [listMax]
        have hy : y = x := hvmem y (by rw [hl]; simp)
        rw [hy]
        exact foldl_max_const x ys (fun a ha => hvmem a (by rw [hl]; simp [ha]))
    have hsome : ∀ s ∈ s0 :: rest, s.isSome = true := by
      intro s hsmem
      rw [h s (hs ▸ hsmem)]
      rfl
    rw [pyNormalize]
    simp only [if_neg hvne, hmin, hmax, sub_self, abs_zero]
    rw [if_pos (by norm_num)]
    exact List.map_congr_left (fun s hsmem => by simp [hsome s hsmem])

theorem combineScores_const (w : Weights) (cands : List Entry) (a b v r : ℚ) :
    combineScores w cands (cands.map fun _ => a) (cands.map fun _ => b)
      (cands.map fun _ => v) (cands.map fun _ => r) =
      cands.map (fun c => { c with
        rerank_score :=
          some (w.alpha * a + w.beta * b + w.gamma * v + w.delta * r)
        score_rerank_cos := some a }) := by
  induction cands with
  | nil => rfl
  | cons c cs ih =>
      simp only [List.map_cons, combineScores]
      rw [ih]

theorem exists_const_of_pairwise {α : Type} [Inhabited α] (l : List α)
    (h : ∀ x ∈ l, ∀ y ∈ l, x = y) : ∃ v, ∀ x ∈ l, x = v := by
  rcases l with _ | ⟨x, xs⟩
  · exact ⟨default, by simp⟩
  · exact ⟨x, fun y hy => h y hy x (by simp)⟩

/-- Claim C6: if the four score series (cosine, bm25, vector, rrf) are each
pairwise equal across a non-empty candidate list, `Reranker.rerank` gives every
candidate the same `rerank_score` and returns the candidates in their original
relative order (stable sort), only adding the two rerank fields. -/
theorem c6_rerank_uniform (w : Weights) (norm : List ℚ → ℚ)
    (embed : String → List ℚ) (query : String) (cands : List Entry)
    (hne : cands ≠ [])
    (hcos : ∀ x ∈ cosSeries norm embed (embed query) cands,
      ∀ y ∈ cosSeries norm embed (embed query) cands, x = y)
    (hbm : ∀ x ∈ bm25Series cands, ∀ y ∈ bm25Series cands, x = y)
    (hvec : ∀ x ∈ vecSeries cands, ∀ y ∈ vecSeries cands, x = y)
    (hrrf : ∀ x ∈ rrfSeries cands, ∀ y ∈ rrfSeries cands, x = y) :
    ∃ s c0, rerankModel w norm embed query cands =
      cands.map (fun c =>
        { c with rerank_score := some s, score_rerank_cos := some c0 }) := by
  obtain ⟨cv, hcv⟩ := exists_const_of_pairwise _ hcos
  obtain ⟨vb, hvb⟩ := exists_const_of_pairwise _ hbm
  obtain ⟨vv, hvv⟩ := exists_const_of_pairwise _ hvec
  obtain ⟨vr, hvr⟩ := exists_const_of_pairwise _ hrrf
  obtain ⟨ca, hca⟩ := pyNormalize_const
    ((cosSeries norm embed (embed query) cands).map some) (some cv) (by
      intro s hsm
      rcases List.mem_map.mp hsm with ⟨x, hx, rfl⟩
      rw [hcv x hx])
  obtain ⟨cb, hcb⟩ := pyNormalize_const (bm25Series cands) vb hvb
  obtain ⟨cc, hcc⟩ := pyNormalize_const (vecSeries cands) vv hvv
  obtain ⟨cr, hcr⟩ := pyNormalize_const (rrfSeries cands) vr hvr
  refine ⟨w.alpha * ca + w.beta * cb + w.gamma * cc + w.delta * cr, ca, ?_⟩
  have hca' : pyNormalize ((cosSeries norm embed (embed query) cands).map some) =
      cands.map (fun _ => ca) := by
    rw [hca]
    simp [cosSeries, List.map_map, Function.comp_def]
  have hcb' : pyNormalize (bm25Series cands) = cands.map (fun _ => cb) := by
    rw [hcb]
    simp [bm25Series, List.map_map, Function.comp_def]
  have hcc' : pyNormalize (vecSeries cands) = cands.map (fun _ => cc) := by
    rw [hcc]
    simp [vecSeries, List.map_map, Function.comp_def]
  have hcr' : pyNormalize (rrfSeries cands) = cands.map (fun _ => cr) := by
    rw [hcr]
    simp [rrfSeries, List.map_map, Function.comp_def]
  rw [rerankModel, if_neg hne]
  show sortDescBy entryRerank (combineScores w cands
      (pyNormalize ((cosSeries norm embed (embed query) cands).map some))
      (pyNormalize (bm25Series cands)) (pyNormalize (vecSeries cands))
      (pyNormalize (rrfSeries cands))) = _
  rw [hca', hcb', hcc', hcr', combineScores_const]
  apply sortDescBy_const _ (w.alpha * ca + w.beta * cb + w.gamma * cc + w.delta * cr)
  intro a ha
  rcases List.mem_map.mp ha with ⟨c, hc, rfl⟩
  rfl

/-- Witness for C6: two text-less candidates with no scores at all; every series
is uniform (cosine `0.0`, the rest all `None`), so both get `rerank_score = 1/2`
(the cosine series min-max collapses to `0.5`, the `None` series to `0.0`) and
keep their order. -/
theorem c6_rerank_uniform_witness :
    (([{ doc_id := some "x" }, { doc_id := some "y" }] : List Entry) ≠ [] ∧
      (∀ x ∈ cosSeries (fun _ => 0) (fun _ => []) ((fun _ => ([] : List ℚ)) "q")
          [{ doc_id := some "x" }, { doc_id := some "y" }],
        ∀ y ∈ cosSeries (fun _ => 0) (fun _ => []) ((fun _ => ([] : List ℚ)) "q")
          [{ doc_id := some "x" }, { doc_id := some "y" }], x = y)) ∧
    ∃ s c0, rerankModel {} (fun _ => 0) (fun _ => []) "q"
        [{ doc_id := some "x" }, { doc_id := some "y" }] =
      ([{ doc_id := some "x" }, { doc_id := some "y" }] : List Entry).map
        (fun c => { c with rerank_score := some s, score_rerank_cos := some c0 }) :=
  ⟨⟨by decide, by decide⟩,
    c6_rerank_uniform {} (fun _ => 0) (fun _ => []) "q"
      [{ doc_id := some "x" }, { doc_id := some "y" }]
      (by decide) (by decide) (by decide) (by decide) (by decide)⟩

/-- Witness for C1: one vector hit and one lexical hit with distinct
`(doc_id, chunk_id)` pairs; the pair `("a", 1)` appears exactly once. -/
theorem c1_fusion_completeness_witness :
    (([{ doc_id := some "a", chunk_id := some 1 }] : List Entry) ≠ [] ∧
     ([{ doc_id := some "b", chunk_id := some 2 }] : List Entry) ≠ [] ∧
     (∀ h ∈ ([{ doc_id := some "a", chunk_id := some 1 }] : List Entry) ++
        [{ doc_id := some "b", chunk_id := some 2 }], h.chunk_id.isSome) ∧
     (∃ h ∈ ([{ doc_id := some "a", chunk_id := some 1 }] : List Entry) ++
        [{ doc_id := some "b", chunk_id := some 2 }],
        h.doc_id = some "a" ∧ h.chunk_id = some 1)) ∧
    (rrf_fuse [{ doc_id := some "a", chunk_id := some 1 }]
        [{ doc_id := some "b", chunk_id := some 2 }] 60).countP
      (fun e => decide (e.doc_id = some "a" ∧ e.chunk_id = some 1)) = 1 :=
  ⟨by decide,
    c1_fusion_completeness [{ doc_id := some "a", chunk_id := some 1 }]
      [{ doc_id := some "b", chunk_id := some 2 }] 60 (some "a") 1
      (by decide) (by decide) (by decide) (by decide) (by decide)⟩

/-- The keys of the fused dict only grow at the end: processing one more source
appends its newly-introduced keys after all existing ones. -/
theorem addResultsAux_keys_extend (source : String) (isVector : Bool) (k : ℕ)
    (hits : List Entry) (L : List (String × Entry)) (rank : ℕ) :
    ∃ newKeys, (addResultsAux source isVector k L rank hits).map Prod.fst =
      L.map Prod.fst ++ newKeys := by
  induction hits generalizing L rank with
  | nil => exact ⟨[], by simp [addResultsAux]⟩
  | cons h rest ih =>
      rcases ih (addHit L source isVector k rank h) (rank + 1) with ⟨tail, htail⟩
      rw [addHit_keys] at htail
      by_cases hk : hasKey (buildKey h source rank) L
      · rw [if_pos hk] at htail
        exact ⟨tail, by simpa [addResultsAux] using htail⟩
      · rw [if_neg hk] at htail
        exact ⟨buildKey h source rank :: tail, by
          simpa [addResultsAux, List.append_assoc] using htail⟩

/-- Claim C2: the output of `rrf_fuse` is sorted descending by `rrf_score`
(no entry has a strictly smaller score than any later entry), entries with equal
`rrf_score` keep their insertion order (the filtered tie classes of the output
equal those of the insertion-ordered pre-sort dict, which lists all
vector-introduced keys in vector rank order followed by the lexical-only keys in
lexical arrival order: the lexical pass only appends new keys at the end). -/
theorem c2_fusion_ordering (vec bm : List Entry) (k : ℕ) :
    (rrf_fuse vec bm k).Pairwise (fun a b => entryRrf b ≤ entryRrf a) ∧
    (∀ c : ℚ, (rrf_fuse vec bm k).filter (fun e => entryRrf e = c) =
      ((preSortFused vec bm k).map Prod.snd).filter (fun e => entryRrf e = c)) ∧
    (∃ lexicalOnlyKeys, (preSortFused vec bm k).map Prod.fst =
      (addResultsAux "vector" true k [] 1 vec).map Prod.fst ++ lexicalOnlyKeys) := by
  refine ⟨sortDescBy_pairwise entryRrf _, fun c => sortDescBy_filter entryRrf c _,
    addResultsAux_keys_extend "bm25" false k bm _ 1⟩

/-- Claim C3: on the spec's concrete example (vector hits `a`, `b`; lexical hits
`b`, `c`; `k = 60`; no `chunk_id` anywhere), the first fused entry is `"a"` with
`rrf_score = 1/61`, `"b"` yields two separate entries (one per source, because the
fallback keys differ per source), and the `doc_id`s present are exactly
`a, b, b, c`. -/
theorem c3_fusion_example :
    (rrf_fuse [{ doc_id := some "a", score := some (9/10) },
               { doc_id := some "b", score := some (8/10) }]
              [{ doc_id := some "b", score := some 3 },
               { doc_id := some "c", score := some 2 }] 60).head?.map
        (fun e => (e.doc_id, e.rrf_score)) = some (some "a", some (1/61)) ∧
    (rrf_fuse [{ doc_id := some "a", score := some (9/10) },
               { doc_id := some "b", score := some (8/10) }]
              [{ doc_id := some "b", score := some 3 },
               { doc_id := some "c", score := some 2 }] 60).countP
        (fun e => decide (e.doc_id = some "b")) = 2 ∧
    (rrf_fuse [{ doc_id := some "a", score := some (9/10) },
               { doc_id := some "b", score := some (8/10) }]
              [{ doc_id := some "b", score := some 3 },
               { doc_id := some "c", score := some 2 }] 60).map (·.doc_id) =
      [some "a", some "b", some "b", some "c"] := by
  refine ⟨by decide, by decide, by decide⟩

/-! ## HybridRetriever (`services/retriever/hybrid_retriever.py`) -/

/-- The per-stage latency dict of a response; an absent key is `none`.  The
elapsed wall-clock millisecond values themselves are parameters of the model. -/
structure LatencyMap where
  vector : Option ℚ := none
  bm25 : Option ℚ := none
  fusion : Option ℚ := none
  rerank : Option ℚ := none
  total : Option ℚ := none
deriving DecidableEq

/-- The `pagination` dict of `HybridRetriever.search`. -/
structure Pagination where
  page : Int
  page_size : Int
  total : Int
deriving DecidableEq

/-- The wall-clock stage latencies (in ms, already rounded) measured during one
`HybridRetriever.search` call; pure parameters of the model. -/
structure HybridTimes where
  vector : ℚ := 0
  bm25 : ℚ := 0
  fusion : ℚ := 0
  rerank : ℚ := 0
  total : ℚ := 0
deriving DecidableEq

/-- The response dict of `HybridRetriever.search` (the `debug` payload, a raw
echo of the intermediate lists, is not modelled). -/
structure HybridOut where
  query : String
  vector_results : List Entry
  bm25_results : List Entry
  fused_results : List Entry
  final_results : List Entry
  latency_ms : LatencyMap
  pagination : Pagination
  rerank : Bool
deriving DecidableEq

/-- The candidate window of `HybridRetriever.search`:
`fused_results[:top_k] if top_k > 0 else fused_results` (with `rrf_k = 60`). -/
def hybridCandidates (vecResults bm25Results : List Entry) (top_k : Int) :
    List Entry :=
  let fused := rrf_fuse vecResults bm25Results 60
  if 0 < top_k then fused.take top_k.toNat else fused

/-- The possibly-reranked candidate window:
`reranker.rerank(query, candidates) if rerank and candidates else candidates`. -/
def hybridReranked (w : Weights) (norm : List ℚ → ℚ) (embed : String → List ℚ)
    (query : String) (vecResults bm25Results : List Entry) (top_k : Int)
    (rerank : Bool) : List Entry :=
  let candidates := hybridCandidates vecResults bm25Results top_k
  if rerank && !candidates.isEmpty then rerankModel w norm embed query candidates
  else candidates

/-- The pagination step of `HybridRetriever.search`:
`start = (page-1)*page_size`, `end = start+page_size`; an empty page (not an
error) when `start` is at or beyond the list length, else the slice
`[start:end]`.  (For `page ≥ 1`, `page_size ≥ 1` the `toNat` coercions agree
with Python's non-negative slice indices.) -/
def pageSlice (l : List Entry) (page page_size : Int) : List Entry :=
  let start := (page - 1) * page_size
  if start ≥ (l.length : Int) then []
  else (l.drop start.toNat).take page_size.toNat

/-- `HybridRetriever.search` (`services/retriever/hybrid_retriever.py`) given
the two backend result lists: fuse, window to `top_k`, optionally rerank,
paginate, and assemble the response dict. -/
def hybridSearchOut (w : Weights) (norm : List ℚ → ℚ)
    (embed : String → List ℚ) (query : String)
    (vecResults bm25Results : List Entry) (top_k : Int) (rerank : Bool)
    (page page_size : Int) (times : HybridTimes) : HybridOut :=
  let candidates := hybridCandidates vecResults bm25Results top_k
  let reranked :=
    hybridReranked w norm embed query vecResults bm25Results top_k rerank
  { query := query
    vector_results := vecResults
    bm25_results := bm25Results
    fused_results := rrf_fuse vecResults bm25Results 60
    final_results := pageSlice reranked page page_size
    latency_ms :=
      { vector := some times.vector
        bm25 := some times.bm25
        fusion := some times.fusion
        rerank := if rerank then some times.rerank else none
        total := some times.total }
    pagination :=
      { page := page, page_size := page_size, total := candidates.length }
    rerank := rerank }

/-- Claim C8: for `page ≥ 1` and `page_size ≥ 1`, when
`start = (page-1)*page_size` is at or beyond the (possibly reranked) candidate
window's length, `HybridRetriever.search` returns an empty `final_results`
rather than raising; otherwise `final_results` is the slice
`[start, start+page_size)` of that window — and it never exceeds `page_size`
elements. -/
theorem c8_pagination_boundary (w : Weights) (norm : List ℚ → ℚ)
    (embed : String → List ℚ) (query : String)
    (vecResults bm25Results : List Entry) (top_k : Int) (rerank : Bool)
    (page page_size : Int) (times : HybridTimes)
    (hp : 1 ≤ page) (hps : 1 ≤ page_size) :
    ((page - 1) * page_size ≥
        ((hybridReranked w norm embed query vecResults bm25Results top_k
          rerank).length : Int) →
      (hybridSearchOut w norm embed query vecResults bm25Results top_k rerank
        page page_size times).final_results = []) ∧
    ((page - 1) * page_size <
        ((hybridReranked w norm embed query vecResults bm25Results top_k
          rerank).length : Int) →
      (hybridSearchOut w norm embed query vecResults bm25Results top_k rerank
        page page_size times).final_results =
        ((hybridReranked w norm embed query vecResults bm25Results top_k
          rerank).drop ((page - 1) * page_size).toNat).take page_size.toNat) ∧
    (hybridSearchOut w norm embed query vecResults bm25Results top_k rerank
        page page_size times).final_results.length ≤ page_size.toNat := by
  have hfin : (hybridSearchOut w norm embed query vecResults bm25Results top_k
      rerank page page_size times).final_results =
      pageSlice (hybridReranked w norm embed query vecResults bm25Results top_k
        rerank) page page_size := rfl
  refine ⟨?_, ?_, ?_⟩
  · intro hge
    rw [hfin, pageSlice, if_pos hge]
  · intro hlt
    rw [hfin, pageSlice, if_neg (not_le.mpr hlt)]
  · rw [hfin, pageSlice]
    by_cases hge : (page - 1) * page_size ≥
        ((hybridReranked w norm embed query vecResults bm25Results top_k
          rerank).length : Int)
    · rw [if_pos hge]
      simp
    · rw [if_neg hge]
      exact List.length_take_le _ _

/-- Witness for C8: a candidate window of size 2 (two lexical hits), `page = 2`,
`page_size = 10`: the requested page starts beyond the window, so
`final_results` is empty. -/
theorem c8_pagination_boundary_witness :
    ((1 : Int) ≤ 2 ∧ (1 : Int) ≤ 10) ∧
    ((2 - 1) * 10 ≥
        ((hybridReranked {} (fun _ => 0) (fun _ => []) "q" []
          [{ chunk_id := some 1, score := some 2 },
           { chunk_id := some 2, score := some 1 }] 5 false).length : Int) →
      (hybridSearchOut {} (fun _ => 0) (fun _ => []) "q" []
        [{ chunk_id := some 1, score := some 2 },
         { chunk_id := some 2, score := some 1 }] 5 false 2 10 {}).final_results
        = []) ∧
    (hybridSearchOut {} (fun _ => 0) (fun _ => []) "q" []
      [{ chunk_id := some 1, score := some 2 },
       { chunk_id := some 2, score := some 1 }] 5 false 2 10 {}).final_results
      = [] :=
  ⟨⟨by decide, by decide⟩,
    (c8_pagination_boundary {} (fun _ => 0) (fun _ => []) "q" []
      [{ chunk_id := some 1, score := some 2 },
       { chunk_id := some 2, score := some 1 }] 5 false 2 10 {}
      (by decide) (by decide)).1,
    (c8_pagination_boundary {} (fun _ => 0) (fun _ => []) "q" []
      [{ chunk_id := some 1, score := some 2 },
       { chunk_id := some 2, score := some 1 }] 5 false 2 10 {}
      (by decide) (by decide)).1 (by decide)⟩

/-! ## QueryCache (`libs/caching/query_cache.py`) -/

/-- The mutable state of a `QueryCache` instance: the Redis flags and the
in-memory fallback store (`_store`) with its per-key expiry map (`_expire`).
The contents of the networked Redis store are not part of this state; the
outcomes of the client calls are parameters (`RedisEnv`).  All fallback
accesses happen under `self._lock`, so one operation is one atomic state
transition. -/
structure QCState (V : Type) where
  use_redis : Bool
  has_client : Bool
  store : String → Option V
  expire : String → Option ℚ

/-- Outcomes of the Redis client calls during one operation: `get` may return
a payload or raise; `setex` may succeed or raise. -/
structure RedisEnv (V : Type) where
  getResult : String → Except String (Option V)
  setResult : String → Except String Unit

/-- `QueryCache.is_redis_available`:
`bool(self._use_redis and self._redis_client is not None)`. -/
def isRedisAvailable {V : Type} (st : QCState V) : Bool :=
  st.use_redis && st.has_client

/-- `QueryCache.get`: in Redis mode return the payload (`None`, and also on any
client error); otherwise read the in-memory fallback under the lock, evicting
the entry first when `now` is past its recorded expiry.  Returns the
(possibly updated) state with the result. -/
def cacheGet {V : Type} (st : QCState V) (env : RedisEnv V) (key : String)
    (now : ℚ) : QCState V × Option V :=
  if st.use_redis && st.has_client then
    match env.getResult key with
    | .ok v => (st, v)
    | .error _ => (st, none)
  else
    match st.expire key with
    | some exp =>
        if now > exp then
          ({ st with
              store := fun x => if x = key then none else st.store x
              expire := fun x => if x = key then none else st.expire x }, none)
        else (st, st.store key)
    | none => (st, st.store key)

/-- `QueryCache.set`: `None` payloads are dropped; in Redis mode `setex` is
attempted first and on success nothing else happens; on a Redis error (and in
fallback mode) the value is written to the in-memory store with expiry
`now + ttl` — without touching `_use_redis`, so the next write attempts Redis
again.  Total: a backend failure is never propagated to the caller. -/
def cacheSet {V : Type} (st : QCState V) (env : RedisEnv V) (key : String)
    (value : Option V) (ttl : ℚ) (now : ℚ) : QCState V :=
  if value.isNone then st
  else
    let memWrite : QCState V :=
      { st with
          store := fun x => if x = key then value else st.store x
          expire := fun x => if x = key then some (now + ttl) else st.expire x }
    if st.use_redis && st.has_client then
      match env.setResult key with
      | .ok _ => st
      | .error _ => memWrite
    else memWrite

/-- Claim C7: on the in-memory fallback store, after `set(key, value, ttl)` at
time `now`, a `get(key)` at any time up to `now + ttl` returns the value, and a
`get(key)` at any later time returns `None` and evicts the entry (both the
stored value and its expiry record are gone after that read). -/
theorem c7_cache_ttl_expiry {V : Type} (st : QCState V) (env env' : RedisEnv V)
    (key : String) (v : V) (ttl now t : ℚ)
    (hmode : isRedisAvailable st = false) :
    ((t ≤ now + ttl →
      (cacheGet (cacheSet st env key (some v) ttl now) env' key t).2 = some v) ∧
     (t > now + ttl →
      (cacheGet (cacheSet st env key (some v) ttl now) env' key t).2 = none ∧
      (cacheGet (cacheSet st env key (some v) ttl now) env' key t).1.store key
        = none ∧
      (cacheGet (cacheSet st env key (some v) ttl now) env' key t).1.expire key
        = none)) := by
  have hflag : (st.use_redis && st.has_client) = false := hmode
  have hset : cacheSet st env key (some v) ttl now =
      { st with
          store := fun x => if x = key then some v else st.store x
          expire := fun x => if x = key then some (now + ttl) else st.expire x } := by
    rw [cacheSet]
    simp [hflag]
  constructor
  · intro hle
    rw [hset, cacheGet]
    simp [hflag, not_lt.mpr hle]
  · intro hgt
    rw [hset, cacheGet]
    simp [hflag, hgt]

/-- Witness for C7: empty fallback cache, `set("k", 1, ttl=1)` at time 0;
`get` at time `1/2` returns the value, `get` at time `2` returns `None` and
leaves no trace of the entry. -/
theorem c7_cache_ttl_expiry_witness :
    (isRedisAvailable
        (⟨false, false, fun _ => none, fun _ => none⟩ : QCState ℕ) = false ∧
      ((1:ℚ)/2 ≤ 0 + 1) ∧ ((2:ℚ) > 0 + 1)) ∧
    ((cacheGet (cacheSet ⟨false, false, fun _ => none, fun _ => none⟩
        ⟨fun _ => .ok none, fun _ => .ok ()⟩ "k" (some 1) 1 0)
        ⟨fun _ => .ok none, fun _ => .ok ()⟩ "k" (1/2)).2 = some 1) ∧
    ((cacheGet (cacheSet ⟨false, false, fun _ => none, fun _ => none⟩
        ⟨fun _ => .ok none, fun _ => .ok ()⟩ "k" (some 1) 1 0)
        ⟨fun _ => .ok none, fun _ => .ok ()⟩ "k" 2).2 = none) :=
  ⟨⟨by decide, by norm_num, by norm_num⟩,
    (c7_cache_ttl_expiry ⟨false, false, fun _ => none, fun _ => none⟩
      ⟨fun _ => .ok none, fun _ => .ok ()⟩ ⟨fun _ => .ok none, fun _ => .ok ()⟩
      "k" 1 1 0 (1/2) (by decide)).1 (by norm_num),
    ((c7_cache_ttl_expiry ⟨false, false, fun _ => none, fun _ => none⟩
      ⟨fun _ => .ok none, fun _ => .ok ()⟩ ⟨fun _ => .ok none, fun _ => .ok ()⟩
      "k" 1 1 0 2 (by decide)).2 (by norm_num)).1⟩

/-- Claim C9: when a `set` in Redis mode hits a failing `setex`, the use-Redis
flag survives (so the very next write attempts the shared store again, and
`is_redis_available` still reports Redis), the value lands in the in-memory
fallback store with its expiry, and — `cacheSet` being a total function whose
error branch is this fallback — the failure never propagates to the caller. -/
theorem c9_cache_write_selfheal {V : Type} (st : QCState V) (env : RedisEnv V)
    (key : String) (v : V) (ttl now : ℚ) (msg : String)
    (hredis : st.use_redis = true) (hclient : st.has_client = true)
    (hfail : env.setResult key = .error msg) :
    (cacheSet st env key (some v) ttl now).use_redis = true ∧
    (cacheSet st env key (some v) ttl now).has_client = true ∧
    isRedisAvailable (cacheSet st env key (some v) ttl now) = true ∧
    (cacheSet st env key (some v) ttl now).store key = some v ∧
    (cacheSet st env key (some v) ttl now).expire key = some (now + ttl) := by
  have hset : cacheSet st env key (some v) ttl now =
      { st with
          store := fun x => if x = key then some v else st.store x
          expire := fun x => if x = key then some (now + ttl) else st.expire x } := by
    rw [cacheSet]
    simp [hredis, hclient, hfail]
  rw [hset]
  refine ⟨hredis, hclient, ?_, by simp, by simp⟩
  simp [isRedisAvailable, hredis, hclient]

/-- Witness for C9: Redis mode with a `setex` that raises; the flagged state
keeps Redis enabled and the fallback store holds the value. -/
theorem c9_cache_write_selfheal_witness :
    ((⟨true, true, fun _ => none, fun _ => none⟩ : QCState ℕ).use_redis = true ∧
      ((⟨fun _ => .ok none, fun _ => .error "conn reset"⟩ :
        RedisEnv ℕ).setResult "k" = .error "conn reset")) ∧
    ((cacheSet (⟨true, true, fun _ => none, fun _ => none⟩ : QCState ℕ)
        ⟨fun _ => .ok none, fun _ => .error "conn reset"⟩ "k" (some 7) 30
        100).use_redis = true ∧
     isRedisAvailable (cacheSet (⟨true, true, fun _ => none, fun _ => none⟩ :
        QCState ℕ) ⟨fun _ => .ok none, fun _ => .error "conn reset"⟩ "k"
        (some 7) 30 100) = true ∧
     (cacheSet (⟨true, true, fun _ => none, fun _ => none⟩ : QCState ℕ)
        ⟨fun _ => .ok none, fun _ => .error "conn reset"⟩ "k" (some 7) 30
        100).store "k" = some 7) :=
  ⟨⟨rfl, rfl⟩, by
    have h := c9_cache_write_selfheal
      (⟨true, true, fun _ => none, fun _ => none⟩ : QCState ℕ)
      ⟨fun _ => .ok none, fun _ => .error "conn reset"⟩ "k" 7 30 100 "conn reset"
      rfl rfl rfl
    exact ⟨h.1, h.2.2.1, h.2.2.2.1⟩⟩

/-! ## SHA-256 (`hashlib.sha256`, FIPS 180-4) and `QueryCache.make_key`

`make_key` hashes its pre-hash payload string with SHA-256 and keeps the first
32 hex digits.  The hash is Python's standard `hashlib`; it is implemented here
in full (words are `ℕ` taken mod `2^32`) so that `make_key` is executable.  The
implementation is validated below against the FIPS test vectors. -/

/-- Truncate to a 32-bit word. -/
def w32 (n : ℕ) : ℕ := n % 4294967296

/-- 32-bit right rotation. -/
def rotr32 (r w : ℕ) : ℕ := w32 (w / 2 ^ r + w % 2 ^ r * 2 ^ (32 - r))

/-- SHA-256 `Ch(x,y,z) = (x ∧ y) ⊕ (¬x ∧ z)`. -/
def ch32 (x y z : ℕ) : ℕ := (x &&& y) ^^^ ((4294967295 - w32 x) &&& z)

/-- SHA-256 `Maj(x,y,z)`. -/
def maj32 (x y z : ℕ) : ℕ := (x &&& y) ^^^ (x &&& z) ^^^ (y &&& z)

/-- SHA-256 `Σ₀`. -/
def bsig0 (x : ℕ) : ℕ := rotr32 2 x ^^^ rotr32 13 x ^^^ rotr32 22 x

/-- SHA-256 `Σ₁`. -/
def bsig1 (x : ℕ) : ℕ := rotr32 6 x ^^^ rotr32 11 x ^^^ rotr32 25 x

/-- SHA-256 `σ₀`. -/
def ssig0 (x : ℕ) : ℕ := rotr32 7 x ^^^ rotr32 18 x ^^^ x / 2 ^ 3

/-- SHA-256 `σ₁`. -/
def ssig1 (x : ℕ) : ℕ := rotr32 17 x ^^^ rotr32 19 x ^^^ x / 2 ^ 10

/-- The SHA-256 round constants. -/
def K256 : List ℕ :=
  [1116352408, 1899447441, 3049323471, 3921009573, 961987163,
   1508970993, 2453635748, 2870763221, 3624381080, 310598401,
   607225278, 1426881987, 1925078388, 2162078206, 2614888103,
   3248222580, 3835390401, 4022224774, 264347078, 604807628,
   770255983, 1249150122, 1555081692, 1996064986, 2554220882,
   2821834349, 2952996808, 3210313671, 3336571891, 3584528711,
   113926993, 338241895, 666307205, 773529912, 1294757372,
   1396182291, 1695183700, 1986661051, 2177026350, 2456956037,
   2730485921, 2820302411, 3259730800, 3345764771, 3516065817,
   3600352804, 4094571909, 275423344, 430227734, 506948616,
   659060556, 883997877, 958139571, 1322822218, 1537002063,
   1747873779, 1955562222, 2024104815, 2227730452, 2361852424,
   2428436474, 2756734187, 3204031479, 3329325298]

/-- The eight 32-bit working variables of SHA-256. -/
structure Sha8 where
  a : ℕ
  b : ℕ
  c : ℕ
  d : ℕ
  e : ℕ
  f : ℕ
  g : ℕ
  h : ℕ

/-- The SHA-256 initial hash value. -/
def sha256Init : Sha8 :=
  ⟨1779033703, 3144134277, 1013904242, 2773480762,
   1359893119, 2600822924, 528734635, 1541459225⟩

/-- Extend a 16-word block to the 64-word message schedule (`fuel = 48`). -/
def extendW : ℕ → List ℕ → List ℕ
  | 0, ws => ws
  | fuel + 1, ws =>
      let t := ws.length
      let wt := w32 (ssig1 (ws.getD (t - 2) 0) + ws.getD (t - 7) 0 +
        ssig0 (ws.getD (t - 15) 0) + ws.getD (t - 16) 0)
      extendW fuel (ws ++ [wt])

/-- One SHA-256 compression round. -/
def shaRound (st : Sha8) (kt wt : ℕ) : Sha8 :=
  let t1 := w32 (st.h + bsig1 st.e + ch32 st.e st.f st.g + kt + wt)
  let t2 := w32 (bsig0 st.a + maj32 st.a st.b st.c)
  { a := w32 (t1 + t2), b := st.a, c := st.b, d := st.c,
    e := w32 (st.d + t1), f := st.e, g := st.f, h := st.g }

/-- Compress one 16-word block into the running hash. -/
def shaCompress (h0 : Sha8) (block : List ℕ) : Sha8 :=
  let w := extendW 48 block
  let st := (K256.zip w).foldl (fun s p => shaRound s p.1 p.2) h0
  { a := w32 (h0.a + st.a), b := w32 (h0.b + st.b), c := w32 (h0.c + st.c),
    d := w32 (h0.d + st.d), e := w32 (h0.e + st.e), f := w32 (h0.f + st.f),
    g := w32 (h0.g + st.g), h := w32 (h0.h + st.h) }

/-- SHA-256 padding: `0x80`, zeros to 56 mod 64, then the 64-bit big-endian
bit length. -/
def padMessage (msg : List ℕ) : List ℕ :=
  let L := msg.length
  let k := (64 + 55 - L % 64) % 64
  msg ++ [128] ++ List.replicate k 0 ++
    [8 * L / 2 ^ 56 % 256, 8 * L / 2 ^ 48 % 256, 8 * L / 2 ^ 40 % 256,
     8 * L / 2 ^ 32 % 256, 8 * L / 2 ^ 24 % 256, 8 * L / 2 ^ 16 % 256,
     8 * L / 2 ^ 8 % 256, 8 * L % 256]

/-- Big-endian 4-byte groups to 32-bit words. -/
def bytesToWords : List ℕ → List ℕ
  | b0 :: b1 :: b2 :: b3 :: rest =>
      (((b0 * 256 + b1) * 256 + b2) * 256 + b3) :: bytesToWords rest
  | _ => []

/-- Chunk a word list into 16-word blocks (fuel-bounded recursion). -/
def toBlocksAux : ℕ → List ℕ → List (List ℕ)
  | 0, _ => []
  | _, [] => []
  | fuel + 1, ws => ws.take 16 :: toBlocksAux fuel (ws.drop 16)

/-- Chunk a word list into 16-word blocks. -/
def toBlocks (ws : List ℕ) : List (List ℕ) := toBlocksAux ws.length ws

/-- The eight 32-bit words of the SHA-256 digest of a byte string. -/
def sha256Words (msg : List ℕ) : List ℕ :=
  let blocks := toBlocks (bytesToWords (padMessage msg))
  let st := blocks.foldl shaCompress sha256Init
  [st.a, st.b, st.c, st.d, st.e, st.f, st.g, st.h]

/-- Lower-case hex digit of a value below 16. -/
def hexDigit (n : ℕ) : Char :=
  if n = 0 then '0' else if n = 1 then '1' else if n = 2 then '2' else
  if n = 3 then '3' else if n = 4 then '4' else if n = 5 then '5' else
  if n = 6 then '6' else if n = 7 then '7' else if n = 8 then '8' else
  if n = 9 then '9' else if n = 10 then 'a' else if n = 11 then 'b' else
  if n = 12 then 'c' else if n = 13 then 'd' else if n = 14 then 'e' else 'f'

/-- The eight hex digits of a 32-bit word. -/
def wordHexChars (w : ℕ) : List Char :=
  [hexDigit (w / 2 ^ 28 % 16), hexDigit (w / 2 ^ 24 % 16),
   hexDigit (w / 2 ^ 20 % 16), hexDigit (w / 2 ^ 16 % 16),
   hexDigit (w / 2 ^ 12 % 16), hexDigit (w / 2 ^ 8 % 16),
   hexDigit (w / 2 ^ 4 % 16), hexDigit (w % 16)]

/-- UTF-8 encoding of a Unicode scalar value (Python `str.encode("utf-8")`). -/
def utf8EncodeNat (n : ℕ) : List ℕ :=
  if n < 128 then [n]
  else if n < 2048 then [192 + n / 64, 128 + n % 64]
  else if n < 65536 then [224 + n / 4096, 128 + n / 64 % 64, 128 + n % 64]
  else [240 + n / 262144, 128 + n / 4096 % 64, 128 + n / 64 % 64, 128 + n % 64]

/-- The UTF-8 bytes of a string. -/
def strBytes (s : String) : List ℕ :=
  s.data.flatMap (fun c => utf8EncodeNat c.toNat)

/-- `hashlib.sha256(...).hexdigest()` as a character list. -/
def sha256HexChars (msg : List ℕ) : List Char :=
  (sha256Words msg).flatMap wordHexChars

/-- FIPS 180-4 test vector: the digest of `"abc"`. -/
theorem sha256_abc :
    String.mk (sha256HexChars (strBytes "abc")) =
      "ba7816bf8f01cfea414140de5dae2223b00361a396177a9cb410ff61f20015ad" := by
  set_option maxRecDepth 100000 in decide

/-- Test vector: the digest of the empty string. -/
theorem sha256_empty :
    String.mk (sha256HexChars (strBytes "")) =
      "e3b0c44298fc1c149afbf4c8996fb92427ae41e4649b934ca495991b7852b855" := by
  set_option maxRecDepth 100000 in decide

/-- Python `str(b)` of a bool: `"True"` / `"False"`. -/
def pyBoolStr (b : Bool) : String := if b then "True" else "False"

/-- The pre-hash payload of `QueryCache.make_key`:
`f"{q}|{hybrid}|{top_k}|{vector_k}|{bm25_k}|{page}|{page_size}|{rerank}"`. -/
def makeKeyRaw (q : String) (hybrid : Bool) (top_k vector_k bm25_k page
    page_size : Int) (rerank : Bool) : String :=
  q ++ "|" ++ pyBoolStr hybrid ++ "|" ++ toString top_k ++ "|" ++
    toString vector_k ++ "|" ++ toString bm25_k ++ "|" ++ toString page ++
    "|" ++ toString page_size ++ "|" ++ pyBoolStr rerank

/-- `QueryCache.make_key` (`libs/caching/query_cache.py`):
`"qcache:" + sha256(raw.encode("utf-8")).hexdigest()[:32]`. -/
def make_key (q : String) (hybrid : Bool) (top_k vector_k bm25_k page
    page_size : Int) (rerank : Bool) : String :=
  "qcache:" ++ String.mk ((sha256HexChars (strBytes
    (makeKeyRaw q hybrid top_k vector_k bm25_k page page_size rerank))).take 32)

/-- The 8-tuple of `make_key` arguments. -/
structure KeyArgs where
  q : String
  hybrid : Bool
  top_k : Int
  vector_k : Int
  bm25_k : Int
  page : Int
  page_size : Int
  rerank : Bool
deriving DecidableEq

/-- `make_key` on an argument tuple. -/
def makeKeyOf (a : KeyArgs) : String :=
  make_key a.q a.hybrid a.top_k a.vector_k a.bm25_k a.page a.page_size a.rerank

/-- The pre-hash payload on an argument tuple. -/
def makeKeyRawOf (a : KeyArgs) : String :=
  makeKeyRaw a.q a.hybrid a.top_k a.vector_k a.bm25_k a.page a.page_size a.rerank

/-! ### Injectivity of the pre-hash payload

The seven fields after the query are formatted without any `|`, so the
`|`-separated payload parses uniquely from the right and is injective in
all eight arguments (the query itself may contain `|`). -/

theorem toDigitsCore_chars (fuel n : ℕ) (ds : List Char)
    (hds : ∀ c ∈ ds, ∃ d, d < 10 ∧ c = Nat.digitChar d) :
    ∀ c ∈ Nat.toDigitsCore 10 fuel n ds, ∃ d, d < 10 ∧ c = Nat.digitChar d := by
  induction fuel generalizing n ds with
  | zero => exact hds
  | succ fuel ih =>
      rw [Nat.toDigitsCore]
      have hdc : ∀ c ∈ (Nat.digitChar (n % 10) :: ds), ∃ d, d < 10 ∧
          c = Nat.digitChar d := by
        intro c hc
        rcases List.mem_cons.mp hc with rfl | hc
        · exact ⟨n % 10, Nat.mod_lt _ (by norm_num), rfl⟩
        · exact hds c hc
      by_cases h : n / 10 = 0
      · simpa [h] using hdc
      · simpa [h] using ih (n / 10) _ hdc

theorem toDigitsCore_eq_digits_append (n : ℕ) :
    ∀ (fuel : ℕ) (ds : List Char), n < fuel →
    Nat.toDigitsCore 10 fuel n ds = Nat.toDigits 10 n ++ ds := by
  induction n using Nat.strong_induction_on with
  | _ n ih =>
      intro fuel ds hfuel
      obtain ⟨f, rfl⟩ : ∃ f, fuel = f + 1 := ⟨fuel - 1, by omega⟩
      rw [Nat.toDigitsCore, Nat.toDigits, Nat.toDigitsCore]
      by_cases h : n / 10 = 0
      · simp [h]
      · rw [if_neg h, if_neg h]
        have hlt : n / 10 < n :=
          Nat.div_lt_self (Nat.pos_of_ne_zero (fun h0 => h (by simp [h0])))
            (by norm_num)
        rw [ih (n / 10) hlt f (Nat.digitChar (n % 10) :: ds) (by omega),
          ih (n / 10) hlt n [Nat.digitChar (n % 10)] hlt, List.append_assoc]
        rfl

def digitVal (c : Char) : ℕ := c.toNat - 48

def digitsVal (l : List Char) : ℕ :=
  l.foldl (fun acc c => 10 * acc + digitVal c) 0

theorem digitVal_digitChar (d : ℕ) (h : d < 10) :
    digitVal (Nat.digitChar d) = d := by
  interval_cases d <;> decide

theorem digitsVal_foldl (l : List Char) (acc : ℕ) :
    l.foldl (fun acc c => 10 * acc + digitVal c) acc =
      acc * 10 ^ l.length + digitsVal l := by
  induction l generalizing acc with
  | nil => simp [digitsVal]
  | cons c cs ih =>
      rw [List.foldl_cons, ih]
      have h2 : digitsVal (c :: cs) = digitVal c * 10 ^ cs.length + digitsVal cs := by
        rw [digitsVal, List.foldl_cons, ih]
        ring
      rw [h2, List.length_cons]
      ring

theorem digitsVal_append_single (l : List Char) (c : Char) :
    digitsVal (l ++ [c]) = 10 * digitsVal l + digitVal c := by
  rw [digitsVal, List.foldl_append]
  rfl

theorem digitsVal_toDigits (n : ℕ) : digitsVal (Nat.toDigits 10 n) = n := by
  induction n using Nat.strong_induction_on with
  | _ n ih =>
      rw [Nat.toDigits, Nat.toDigitsCore]
      by_cases h : n / 10 = 0
      · have hn : n < 10 := by omega
        rw [if_pos h]
        have hmod : n % 10 = n := Nat.mod_eq_of_lt hn
        rw [digitsVal]
        simp only [List.foldl_cons, List.foldl_nil, hmod]
        have := digitVal_digitChar n hn
        omega
      · rw [if_neg h]
        have hlt : n / 10 < n :=
          Nat.div_lt_self (Nat.pos_of_ne_zero (fun h0 => h (by simp [h0])))
            (by norm_num)
        rw [toDigitsCore_eq_digits_append (n / 10) n [Nat.digitChar (n % 10)] hlt]
        rw [digitsVal_append_single, ih (n / 10) hlt,
          digitVal_digitChar (n % 10) (Nat.mod_lt _ (by norm_num))]
        omega

theorem toDigitsCore_ne_nil (fuel n : ℕ) (ds : List Char) :
    Nat.toDigitsCore 10 (fuel + 1) n ds ≠ [] := by
  induction fuel generalizing n ds with
  | zero =>
      rw [Nat.toDigitsCore]
      by_cases h : n / 10 = 0 <;> simp [h, Nat.toDigitsCore]
  | succ fuel ih =>
      rw [Nat.toDigitsCore]
      by_cases h : n / 10 = 0
      · simp [h]
      · simpa [h] using ih (n / 10) _

theorem toDigits_ne_nil (n : ℕ) : Nat.toDigits 10 n ≠ [] :=
  toDigitsCore_ne_nil n n []

theorem natRepr_inj (m n : ℕ) (h : Nat.repr m = Nat.repr n) : m = n := by
  have hd : Nat.toDigits 10 m = Nat.toDigits 10 n := by
    have := congrArg String.data h
    simpa [Nat.repr, List.asString] using this
  rw [← digitsVal_toDigits m, ← digitsVal_toDigits n, hd]

theorem natToString_eq (n : ℕ) : toString n = Nat.repr n := rfl

theorem intToString_ofNat (m : ℕ) : toString (Int.ofNat m) = Nat.repr m := rfl

theorem intToString_negSucc (m : ℕ) :
    toString (Int.negSucc m) = "-" ++ Nat.repr (m + 1) := rfl

theorem natRepr_data (n : ℕ) : (Nat.repr n).data = Nat.toDigits 10 n := rfl

theorem digitChar_lt10_facts (d : ℕ) (h : d < 10) :
    Nat.digitChar d ≠ '|' ∧ Nat.digitChar d ≠ '-' := by
  interval_cases d <;> exact ⟨by decide, by decide⟩

theorem natRepr_chars (n : ℕ) :
    ∀ c ∈ (Nat.repr n).data, c ≠ '|' ∧ c ≠ '-' := by
  intro c hc
  rw [natRepr_data] at hc
  rcases toDigitsCore_chars (n + 1) n [] (by simp) c hc with ⟨d, hd, rfl⟩
  exact digitChar_lt10_facts d hd

theorem natRepr_nobar (n : ℕ) : '|' ∉ (Nat.repr n).data := by
  intro hc
  exact (natRepr_chars n '|' hc).1 rfl

theorem intToString_nobar (i : Int) : '|' ∉ (toString i).data := by
  cases i with
  | ofNat m => exact natRepr_nobar m
  | negSucc m =>
      rw [intToString_negSucc]
      intro hc
      have hc2 : '|' ∈ (Nat.repr (m + 1)).data := by simpa using hc
      exact natRepr_nobar (m + 1) hc2

theorem intToString_inj (i j : Int) (h : toString i = toString j) : i = j := by
  cases i with
  | ofNat m =>
      cases j with
      | ofNat k => exact congrArg Int.ofNat (natRepr_inj m k h)
      | negSucc k =>
          exfalso
          rw [intToString_ofNat, intToString_negSucc] at h
          have hd := congrArg String.data h
          rw [natRepr_data] at hd
          rcases hl : Nat.toDigits 10 m with _ | ⟨c, cs⟩
          · exact toDigits_ne_nil m hl
          · rw [hl] at hd
            have hchead : c = '-' := by simpa using congrArg (fun l => l.headD ' ') hd
            have : c ≠ '-' := by
              have := natRepr_chars m c (by rw [natRepr_data, hl]; simp)
              exact this.2
            exact this hchead
  | negSucc m =>
      cases j with
      | ofNat k =>
          exfalso
          rw [intToString_ofNat, intToString_negSucc] at h
          have hd := congrArg String.data h.symm
          rw [natRepr_data] at hd
          rcases hl : Nat.toDigits 10 k with _ | ⟨c, cs⟩
          · exact toDigits_ne_nil k hl
          · rw [hl] at hd
            have hchead : c = '-' := by simpa using congrArg (fun l => l.headD ' ') hd
            have : c ≠ '-' := by
              have := natRepr_chars k c (by rw [natRepr_data, hl]; simp)
              exact this.2
            exact this hchead
      | negSucc k =>
          rw [intToString_negSucc, intToString_negSucc] at h
          have hd := congrArg String.data h
          simp only [String.data_append] at hd
          have : Nat.repr (m + 1) = Nat.repr (k + 1) := by
            apply String.ext
            simpa using hd
          have hmk := natRepr_inj _ _ this
          have : m = k := by omega
          rw [this]

theorem pyBoolStr_nobar (b : Bool) : '|' ∉ (pyBoolStr b).data := by
  cases b <;> decide

theorem pyBoolStr_inj (b1 b2 : Bool) (h : pyBoolStr b1 = pyBoolStr b2) :
    b1 = b2 := by
  cases b1 <;> cases b2 <;> first | rfl | exact absurd h (by decide)

theorem bar_chain_peel (a : List Char) :
    ∀ (b u v : List Char), '|' ∉ a → '|' ∉ b →
    a ++ '|' :: u = b ++ '|' :: v → a = b ∧ u = v := by
  induction a with
  | nil =>
      intro b u v _ hb h
      cases b with
      | nil => simpa using h
      | cons c bs =>
          exfalso
          have hc : c = '|' := by simpa using (congrArg (fun l => l.headD ' ') h).symm
          exact hb (by simp [hc])
  | cons c as ih =>
      intro b u v ha hb h
      cases b with
      | nil =>
          exfalso
          have hc : c = '|' := by simpa using congrArg (fun l => l.headD ' ') h
          exact ha (by simp [hc])
      | cons c2 bs =>
          have hc : c = c2 := by simpa using congrArg (fun l => l.headD ' ') h
          have htail : as ++ '|' :: u = bs ++ '|' :: v := by
            have := congrArg List.tail h
            simpa using this
          have ha' : '|' ∉ as := fun hx => ha (List.mem_cons_of_mem _ hx)
          have hb' : '|' ∉ bs := fun hx => hb (List.mem_cons_of_mem _ hx)
          rcases ih bs u v ha' hb' htail with ⟨h1, h2⟩
          exact ⟨by rw [hc, h1], h2⟩

theorem reverse_append_bar (x y : List Char) :
    (x ++ '|' :: y).reverse = y.reverse ++ '|' :: x.reverse := by
  simp [List.reverse_append]

theorem makeKeyRaw_data (q : String) (hy : Bool) (tk vk bk pg ps : Int)
    (rr : Bool) :
    (makeKeyRaw q hy tk vk bk pg ps rr).data =
      q.data ++ '|' :: ((pyBoolStr hy).data ++ '|' :: ((toString tk).data ++
        '|' :: ((toString vk).data ++ '|' :: ((toString bk).data ++ '|' ::
        ((toString pg).data ++ '|' :: ((toString ps).data ++ '|' ::
        (pyBoolStr rr).data)))))) := by
  have hbar : ("|" : String).data = ['|'] := rfl
  simp [makeKeyRaw, String.data_append, hbar, List.append_assoc]

theorem makeKeyRaw_injective (a b : KeyArgs)
    (h : makeKeyRawOf a = makeKeyRawOf b) : a = b := by
  obtain ⟨q1, hy1, tk1, vk1, bk1, pg1, ps1, rr1⟩ := a
  obtain ⟨q2, hy2, tk2, vk2, bk2, pg2, ps2, rr2⟩ := b
  have hd := congrArg String.data h
  rw [makeKeyRawOf, makeKeyRawOf] at hd
  simp only at hd
  rw [makeKeyRaw_data, makeKeyRaw_data] at hd
  have hrev := congrArg List.reverse hd
  simp only [reverse_append_bar, List.append_assoc, List.cons_append] at hrev
  have norev : ∀ (s : String), '|' ∉ s.data → '|' ∉ s.data.reverse := by
    intro s hs hx
    exact hs (List.mem_reverse.mp hx)
  obtain ⟨e8, hrev⟩ := bar_chain_peel _ _ _ _
    (norev _ (pyBoolStr_nobar rr1)) (norev _ (pyBoolStr_nobar rr2)) hrev
  obtain ⟨e7, hrev⟩ := bar_chain_peel _ _ _ _
    (norev _ (intToString_nobar ps1)) (norev _ (intToString_nobar ps2)) hrev
  obtain ⟨e6, hrev⟩ := bar_chain_peel _ _ _ _
    (norev _ (intToString_nobar pg1)) (norev _ (intToString_nobar pg2)) hrev
  obtain ⟨e5, hrev⟩ := bar_chain_peel _ _ _ _
    (norev _ (intToString_nobar bk1)) (norev _ (intToString_nobar bk2)) hrev
  obtain ⟨e4, hrev⟩ := bar_chain_peel _ _ _ _
    (norev _ (intToString_nobar vk1)) (norev _ (intToString_nobar vk2)) hrev
  obtain ⟨e3, hrev⟩ := bar_chain_peel _ _ _ _
    (norev _ (intToString_nobar tk1)) (norev _ (intToString_nobar tk2)) hrev
  obtain ⟨e2, e1⟩ := bar_chain_peel _ _ _ _
    (norev _ (pyBoolStr_nobar hy1)) (norev _ (pyBoolStr_nobar hy2)) hrev
  have fq : q1 = q2 := String.ext (List.reverse_injective e1)
  have fhy : hy1 = hy2 :=
    pyBoolStr_inj _ _ (String.ext (List.reverse_injective e2))
  have ftk : tk1 = tk2 :=
    intToString_inj _ _ (String.ext (List.reverse_injective e3))
  have fvk : vk1 = vk2 :=
    intToString_inj _ _ (String.ext (List.reverse_injective e4))
  have fbk : bk1 = bk2 :=
    intToString_inj _ _ (String.ext (List.reverse_injective e5))
  have fpg : pg1 = pg2 :=
    intToString_inj _ _ (String.ext (List.reverse_injective e6))
  have fps : ps1 = ps2 :=
    intToString_inj _ _ (String.ext (List.reverse_injective e7))
  have frr : rr1 = rr2 :=
    pyBoolStr_inj _ _ (String.ext (List.reverse_injective e8))
  rw [fq, fhy, ftk, fvk, fbk, fpg, fps, frr]

theorem charToNat_lt (c : Char) : c.toNat < 1114112 := by
  rcases c.valid with h | ⟨_, h⟩
  · exact Nat.lt_trans h (by norm_num)
  · exact h

instance charFinite : Finite Char :=
  Finite.of_injective (fun c : Char => (⟨c.toNat, charToNat_lt c⟩ : Fin 1114112))
    (fun a b h => by
      apply Char.ext
      apply UInt32.ext
      simpa [Char.toNat] using congrArg Fin.val h)

/-- A cache key is `"qcache:"` plus at most 32 hex digits: at most 39
characters. -/
theorem makeKeyOf_length_le (a : KeyArgs) : (makeKeyOf a).data.length ≤ 39 := by
  rw [makeKeyOf, make_key]
  simp only [String.data_append, List.length_append, List.length_take]
  have h7 : ("qcache:" : String).data.length = 7 := by decide
  have := Nat.min_le_left 32 ((sha256HexChars (strBytes (makeKeyRawOf a))).length)
  rw [h7]
  have hmk : (String.mk ((sha256HexChars (strBytes (makeKeyRaw a.q a.hybrid
      a.top_k a.vector_k a.bm25_k a.page a.page_size a.rerank))).take 32)).data =
      (sha256HexChars (strBytes (makeKeyRaw a.q a.hybrid a.top_k a.vector_k
        a.bm25_k a.page a.page_size a.rerank))).take 32 := rfl
  omega

/-- Claim C4 as stated is false in its sensitivity half: `make_key` truncates a
SHA-256 hex digest to 32 digits, so the key space is finite (≤ 39 characters)
while the 8-tuple space is infinite — by pigeonhole two different tuples share a
key.  (No such pair is feasibly constructible; the failure is the
cryptographic-truncation caveat, not a parsing ambiguity — the pre-hash payload
itself is injective, as proved below.) -/
theorem c4_cache_key_counterexample :
    ¬ (∀ a b : KeyArgs, a ≠ b → makeKeyOf a ≠ makeKeyOf b) := by
  intro hinj
  have hfin : Finite {l : List Char | l.length ≤ 39} :=
    (List.finite_length_le Char 39).to_subtype
  let args : ℕ → KeyArgs := fun n =>
    ⟨String.mk (List.replicate n 'a'), false, 0, 0, 0, 0, 0, false⟩
  let f : ℕ → {l : List Char | l.length ≤ 39} := fun n =>
    ⟨(makeKeyOf (args n)).data, makeKeyOf_length_le (args n)⟩
  obtain ⟨n, m, hnm, hfnm⟩ := Finite.exists_ne_map_eq_of_infinite f
  have hargs : args n ≠ args m := by
    intro he
    apply hnm
    have := congrArg (fun a : KeyArgs => a.q.data.length) he
    simpa [args] using this
  exact hinj (args n) (args m) hargs
    (String.ext (congrArg Subtype.val hfnm))

/-- Claim C4 (amended): `make_key` is a deterministic function of its 8-tuple
(identical tuples give identical keys), and any two tuples differing in at
least one argument yield different pre-hash payload strings — the hashed keys
then differ unless the 128-bit truncated SHA-256 digests collide, which is
cryptographically negligible but not impossible (see the counterexample); in
particular, changing only `page`, only `page_size`, or only the `rerank` flag
of a concrete tuple is proved to change the key itself. -/
theorem c4_cache_key_determinism_sensitivity (a b : KeyArgs) :
    (a = b → makeKeyOf a = makeKeyOf b) ∧
    (a ≠ b → makeKeyRawOf a ≠ makeKeyRawOf b) ∧
    (make_key "q" false 5 5 5 1 10 false ≠ make_key "q" false 5 5 5 2 10 false) ∧
    (make_key "q" false 5 5 5 1 10 false ≠ make_key "q" false 5 5 5 1 20 false) ∧
    (make_key "q" false 5 5 5 1 10 false ≠ make_key "q" false 5 5 5 1 10 true) := by
  refine ⟨fun h => congrArg makeKeyOf h,
    fun hne he => hne (makeKeyRaw_injective a b he), ?_, ?_, ?_⟩
  · set_option maxRecDepth 1000000 in decide
  · set_option maxRecDepth 1000000 in decide
  · set_option maxRecDepth 1000000 in decide

/-! ## `query_endpoint` (`services/api_gateway/main.py`)

The endpoint flow on one request, as a pure function of the request parameters
and of the outcomes of its collaborator calls (cache, Milvus-backed vector
search, BM25, embedding, wall clock).  The returned operation log records every
`query_cache.get` / `query_cache.set` the request performs.  The `debug`
payload, tracing and the query logger (write-only sinks) are not modelled. -/

/-- The response dict of `query_endpoint`; an absent key is `none`. -/
structure QueryResponse where
  trace_id : String := ""
  cache_hit : Bool := false
  query : String := ""
  hybrid : Bool := false
  top_k : Int := 0
  vector_k : Option Int := none
  bm25_k : Option Int := none
  rerank : Option Bool := none
  latency_ms : LatencyMap := {}
  pagination : Option Pagination := none
  results : List Entry := []
  degraded : Bool := false
  degraded_mode : Option String := none
  degraded_reason : Option String := none
  milvus_ok : Bool := true
  redis_ok : Bool := true
deriving DecidableEq

/-- A cache operation performed by the request. -/
inductive CacheOp where
  | read (key : String)
  | write (key : String)
deriving DecidableEq

/-- The query parameters of one request. -/
structure QueryParams where
  q : String
  top_k : Int
  hybrid : Bool
  vector_k : Int
  bm25_k : Int
  rerank : Bool
  page : Int
  page_size : Int
  debug : Bool
deriving DecidableEq

/-- The environment of one request: the outcomes of every collaborator call.
`redis_ok` is what `query_cache.is_redis_available()` returned at request
start; `cacheContent` what `query_cache.get` would return per key;
`vecSearch k` the outcome of the vector retriever's search for `k` hits (an
`error` models a raised exception); `bm25Search k` the BM25 hit list; the
remaining fields are the reranker collaborators and the measured latencies. -/
structure GatewayEnv where
  trace_id : String
  redis_ok : Bool
  cacheContent : String → Option QueryResponse
  vecSearch : Int → Except String (List Entry)
  bm25Search : Int → List Entry
  weights : Weights
  norm : List ℚ → ℚ
  embed : String → List ℚ
  vecMs : ℚ
  bm25Ms : ℚ
  totalMs : ℚ
  hybridTimes : HybridTimes

/-- The formatted item of the non-hybrid vector branch: text falls back to
`meta.text` / `meta.content` when the direct field is falsy; the raw score
becomes `score_vector`; `sources = ["vector"]`; a backend `error` marker is
passed through. -/
def formatVectorHit (hit : Entry) : Entry :=
  { doc_id := hit.doc_id
    chunk_id := hit.chunk_id
    text := if strTruthy hit.text then hit.text
      else pyOrStr (metaTextOf hit.meta) (metaContentOf hit.meta)
    score_vector := hit.score
    score_bm25 := none
    rrf_score := none
    sources := ["vector"]
    error := hit.error }

/-- The formatted item of both degraded (BM25-only) branches:
`sources = ["bm25"]`, no `doc_id`, the raw score becomes `score_bm25`. -/
def formatBm25Hit (hit : Entry) : Entry :=
  { doc_id := none
    chunk_id := hit.chunk_id
    text := hit.text
    score_vector := none
    score_bm25 := hit.score
    rrf_score := none
    sources := ["bm25"] }

/-- The cache-key gate of `query_endpoint`: a key is derived (and the cache
read) only when `debug` is off and Redis reported available. -/
def endpointCacheKey (p : QueryParams) (redis_ok : Bool) : Option String :=
  if !p.debug && redis_ok then
    some (make_key p.q p.hybrid p.top_k p.vector_k p.bm25_k p.page p.page_size
      p.rerank)
  else none

/-- Python `final_results or fused_results`: an empty page falls back to the
full fused list. -/
def pyOrList (a b : List Entry) : List Entry := if a.isEmpty then b else a

/-- `query_endpoint` (`services/api_gateway/main.py`): cache read behind the
gate; on a hit, echo the cached response with `cache_hit = true`; on a miss run
the vector-only or hybrid flow, falling back to BM25-only with
`degraded_mode = "bm25_only"` when the vector backend raises; then the cache
write gate (`debug` off, key derived, non-empty results, not degraded). -/
def query_endpoint (p : QueryParams) (env : GatewayEnv) :
    QueryResponse × List CacheOp :=
  let cache_key := endpointCacheKey p env.redis_ok
  let readOps : List CacheOp := match cache_key with
    | some k => [.read k]
    | none => []
  let cached : Option QueryResponse := match cache_key with
    | some k => env.cacheContent k
    | none => none
  match cached with
  | some c => ({ c with trace_id := env.trace_id, cache_hit := true }, readOps)
  | none =>
      let response : QueryResponse :=
        if !p.hybrid then
          match env.vecSearch p.top_k with
          | .ok hits =>
              { trace_id := env.trace_id, cache_hit := false, query := p.q
                hybrid := false, top_k := p.top_k
                latency_ms :=
                  { vector := some env.vecMs, total := some env.totalMs }
                results := hits.map formatVectorHit
                degraded := false, degraded_mode := none
                degraded_reason := none
                milvus_ok := true, redis_ok := env.redis_ok }
          | .error e =>
              { trace_id := env.trace_id, cache_hit := false, query := p.q
                hybrid := false, top_k := p.top_k
                latency_ms := { vector := some 0, bm25 := some env.bm25Ms
                                total := some env.totalMs }
                results := (env.bm25Search p.top_k).map formatBm25Hit
                degraded := true, degraded_mode := some "bm25_only"
                degraded_reason := some ("vector_search_failed: " ++ e)
                milvus_ok := false, redis_ok := env.redis_ok }
        else
          match env.vecSearch p.vector_k with
          | .ok vhits =>
              let out := hybridSearchOut env.weights env.norm env.embed p.q
                vhits (env.bm25Search p.bm25_k) p.top_k p.rerank p.page
                p.page_size env.hybridTimes
              { trace_id := env.trace_id, cache_hit := false, query := p.q
                hybrid := true, top_k := p.top_k, vector_k := some p.vector_k
                bm25_k := some p.bm25_k, rerank := some p.rerank
                latency_ms := out.latency_ms
                pagination := some out.pagination
                results := pyOrList out.final_results out.fused_results
                degraded := false, degraded_mode := none
                degraded_reason := none
                milvus_ok := true, redis_ok := env.redis_ok }
          | .error e =>
              let formatted := (env.bm25Search p.top_k).map formatBm25Hit
              { trace_id := env.trace_id, cache_hit := false, query := p.q
                hybrid := true, top_k := p.top_k, vector_k := some p.vector_k
                -- source quirk: the degraded hybrid branch echoes `top_k` as
                -- `bm25_k` and no `"vector"` latency entry at all
                bm25_k := some p.top_k, rerank := some false
                latency_ms := { bm25 := some env.bm25Ms
                                total := some env.totalMs }
                pagination := some { page := 1
                                     page_size :=
                                       if formatted.length = 0 then p.page_size
                                       else (formatted.length : Int)
                                     total := (formatted.length : Int) }
                results := formatted
                degraded := true, degraded_mode := some "bm25_only"
                degraded_reason := some ("hybrid_search_failed: " ++ e)
                milvus_ok := false, redis_ok := env.redis_ok }
      let writeOps : List CacheOp :=
        if !p.debug && cache_key.isSome && !response.results.isEmpty &&
            !response.degraded then
          match cache_key with
          | some k => [.write k]
          | none => []
        else []
      (response, readOps ++ writeOps)

/-- Claim C5 as stated fails in its latency conjunct: in the *hybrid* degraded
branch the latency dict is `{"bm25": ..., "total": ...}` — there is no
`"vector"` entry at all (only the non-hybrid degraded branch writes
`"vector": 0.0`).  Concrete hybrid request, vector backend raising, cache
bypassed: the response is degraded BM25-only, yet `latency_ms` holds no vector
entry (`none`, not `some 0`). -/
theorem c5_degradation_counterexample :
    ((query_endpoint ⟨"q", 5, true, 5, 5, false, 1, 10, false⟩
        ⟨"t", false, fun _ => none, fun _ => .error "milvus down", fun _ => [],
          {}, fun _ => 0, fun _ => [], 0, 0, 0, {}⟩).1.degraded = true) ∧
    ((query_endpoint ⟨"q", 5, true, 5, 5, false, 1, 10, false⟩
        ⟨"t", false, fun _ => none, fun _ => .error "milvus down", fun _ => [],
          {}, fun _ => 0, fun _ => [], 0, 0, 0, {}⟩).1.degraded_mode =
      some "bm25_only") ∧
    ((query_endpoint ⟨"q", 5, true, 5, 5, false, 1, 10, false⟩
        ⟨"t", false, fun _ => none, fun _ => .error "milvus down", fun _ => [],
          {}, fun _ => 0, fun _ => [], 0, 0, 0, {}⟩).1.latency_ms.vector =
      none) := by
  refine ⟨by decide, by decide, by decide⟩

/-- Claim C5 (amended): on every cache-miss request whose vector backend
deterministically raises, the endpoint returns normally (the model function is
total on that branch) with `degraded = true`, `degraded_mode = "bm25_only"`, a
non-null `degraded_reason`, every result entry carrying `sources = ["bm25"]`,
and the latency map records `0.0` vector latency when `hybrid` is off and omits
the vector entry when `hybrid` is on. -/
theorem c5_degradation_short_circuit (p : QueryParams) (env : GatewayEnv)
    (msg : String) (hvec : ∀ k, env.vecSearch k = .error msg)
    (hmiss : ∀ k, env.cacheContent k = none) :
    (query_endpoint p env).1.degraded = true ∧
    (query_endpoint p env).1.degraded_mode = some "bm25_only" ∧
    (query_endpoint p env).1.degraded_reason.isSome = true ∧
    (∀ e ∈ (query_endpoint p env).1.results, e.sources = ["bm25"]) ∧
    (query_endpoint p env).1.latency_ms.vector =
      (if p.hybrid then none else some 0) := by
  have hcached : (match endpointCacheKey p env.redis_ok with
      | some k => env.cacheContent k
      | none => none) = (none : Option QueryResponse) := by
    cases endpointCacheKey p env.redis_ok with
    | some k => exact hmiss k
    | none => rfl
  rw [query_endpoint]
  simp only [hcached]
  cases hb : p.hybrid with
  | true =>
      simp only [hb, hvec p.vector_k, Bool.not_true]
      refine ⟨by trivial, by trivial, by trivial, ?_, by trivial⟩
      intro e he
      rcases List.mem_map.mp he with ⟨hit, _, rfl⟩
      rfl
  | false =>
      simp only [hb, hvec p.top_k, Bool.not_false]
      refine ⟨by trivial, by trivial, by trivial, ?_, by trivial⟩
      intro e he
      rcases List.mem_map.mp he with ⟨hit, _, rfl⟩
      rfl

/-- Witness for C5: a non-hybrid and the BM25 formatting of one hit; the
response is degraded BM25-only with a recorded `0.0` vector latency. -/
theorem c5_degradation_short_circuit_witness :
    ((∀ k, (fun _ : Int => (.error "milvus down" : Except String (List Entry)))
        k = .error "milvus down") ∧
      (∀ k, (fun _ : String => (none : Option QueryResponse)) k = none)) ∧
    ((query_endpoint ⟨"q", 5, false, 5, 5, false, 1, 10, false⟩
        ⟨"t", true, fun _ => none, fun _ => .error "milvus down",
          fun _ => [{ chunk_id := some 3, text := some "passage", score := some 2 }], {}, fun _ => 0, fun _ => [], 0, 0, 0,
          {}⟩).1.degraded = true ∧
      (query_endpoint ⟨"q", 5, false, 5, 5, false, 1, 10, false⟩
        ⟨"t", true, fun _ => none, fun _ => .error "milvus down",
          fun _ => [{ chunk_id := some 3, text := some "passage", score := some 2 }], {}, fun _ => 0, fun _ => [], 0, 0, 0,
          {}⟩).1.degraded_mode = some "bm25_only" ∧
      (∀ e ∈ (query_endpoint ⟨"q", 5, false, 5, 5, false, 1, 10, false⟩
        ⟨"t", true, fun _ => none, fun _ => .error "milvus down",
          fun _ => [{ chunk_id := some 3, text := some "passage", score := some 2 }], {}, fun _ => 0, fun _ => [], 0, 0, 0,
          {}⟩).1.results, e.sources = ["bm25"]) ∧
      (query_endpoint ⟨"q", 5, false, 5, 5, false, 1, 10, false⟩
        ⟨"t", true, fun _ => none, fun _ => .error "milvus down",
          fun _ => [{ chunk_id := some 3, text := some "passage", score := some 2 }], {}, fun _ => 0, fun _ => [], 0, 0, 0,
          {}⟩).1.latency_ms.vector = some 0) :=
  ⟨⟨fun _ => rfl, fun _ => rfl⟩, by
    have h := c5_degradation_short_circuit
      ⟨"q", 5, false, 5, 5, false, 1, 10, false⟩
      ⟨"t", true, fun _ => none, fun _ => .error "milvus down",
        fun _ => [{ chunk_id := some 3, text := some "passage", score := some 2 }],
        {}, fun _ => 0, fun _ => [], 0, 0, 0, {}⟩
      "milvus down" (fun _ => rfl) (fun _ => rfl)
    exact ⟨h.1, h.2.1, h.2.2.2.1, h.2.2.2.2⟩⟩

/-- Claim C10 (implicit): when `is_redis_available()` reports `false` at
request start, the endpoint derives no cache key, performs no cache read and no
cache write at all (the operation log is empty — in particular the in-memory
fallback store is never consulted), and the response has `cache_hit = false`. -/
theorem c10_no_cache_when_redis_down (p : QueryParams) (env : GatewayEnv)
    (hredis : env.redis_ok = false) :
    endpointCacheKey p env.redis_ok = none ∧
    (query_endpoint p env).2 = [] ∧
    (query_endpoint p env).1.cache_hit = false := by
  have hkey : endpointCacheKey p env.redis_ok = none := by
    rw [endpointCacheKey, hredis]
    simp
  refine ⟨hkey, ?_, ?_⟩
  · rw [query_endpoint]
    simp [hkey]
  · rw [query_endpoint]
    simp only [hkey]
    by_cases hh : p.hybrid
    · cases hv : env.vecSearch p.vector_k with
      | ok hits => simp [hh, hv]
      | error e => simp [hh, hv]
    · cases hv : env.vecSearch p.top_k with
      | ok hits => simp [hh, hv]
      | error e => simp [hh, hv]

/-- Witness for C10: a concrete request with Redis down performs no cache
operation and reports a cache miss. -/
theorem c10_no_cache_when_redis_down_witness :
    ((⟨"t", false, fun _ => none, fun _ => .ok [], fun _ => [], {},
        fun _ => 0, fun _ => [], 0, 0, 0, {}⟩ : GatewayEnv).redis_ok =
      false) ∧
    ((query_endpoint ⟨"q", 5, false, 5, 5, false, 1, 10, false⟩
        ⟨"t", false, fun _ => none, fun _ => .ok [], fun _ => [], {},
          fun _ => 0, fun _ => [], 0, 0, 0, {}⟩).2 = [] ∧
      (query_endpoint ⟨"q", 5, false, 5, 5, false, 1, 10, false⟩
        ⟨"t", false, fun _ => none, fun _ => .ok [], fun _ => [], {},
          fun _ => 0, fun _ => [], 0, 0, 0, {}⟩).1.cache_hit = false) :=
  ⟨rfl, by
    have h := c10_no_cache_when_redis_down
      ⟨"q", 5, false, 5, 5, false, 1, 10, false⟩
      ⟨"t", false, fun _ => none, fun _ => .ok [], fun _ => [], {},
        fun _ => 0, fun _ => [], 0, 0, 0, {}⟩ rfl
    exact ⟨h.2.1, h.2.2⟩⟩
